import Mathlib

/-!
Verification development for the deen-react-native chat storage and
streaming utilities (src/utils/chatStorage.ts, src/utils/config.ts,
src/utils/constants.ts and the hikmah progress store).

The TypeScript code persists JSON-encoded records in AsyncStorage and
parses JSON trailers from streamed chat responses.  We model:

* JavaScript JSON values (`Json`), `JSON.stringify` (`jsonStringify`) and
  `JSON.parse` (`jsonParse`).  Numbers are modelled as integers: every
  numeric value the storage layer produces (`Date.now()` timestamps) is
  an integer, and floating point is outside the scope of this model.
  Lean strings are sequences of unicode scalar values, so lone UTF-16
  surrogates are not representable; none of the verified properties
  depend on them.
* AsyncStorage as an association list from keys to string values.
* The chat storage operations (`loadMessages`, `saveMessages`,
  `purgeExpiredSessions`, `compactMessage`, `startNewConversation`),
  the stream accumulation logic of `sendChatMessageStream`, the trailer
  splitter `parseStreamResponse`, and the hikmah progress store
  (`getProgress` / `setProgress`).
-/

/-- Character constants used by the JSON serializer (written via
`Char.ofNat` to keep brace and quote characters out of literals). -/
def quoteC : Char := Char.ofNat 34

/-- Backslash character. -/
def bslashC : Char := Char.ofNat 92

/-- Left curly brace character. -/
def lbraceC : Char := Char.ofNat 123

/-- Right curly brace character. -/
def rbraceC : Char := Char.ofNat 125

/-- JavaScript JSON values.  Mirrors the runtime values produced by
`JSON.parse`: `null`, booleans, (integer) numbers, strings, arrays and
objects with ordered field lists. -/
inductive Json where
  | null
  | bool (b : Bool)
  | num (n : Int)
  | str (s : String)
  | arr (elems : List Json)
  | obj (fields : List (String × Json))

/-- Hexadecimal digit character (lowercase), as emitted by
`JSON.stringify` for control-character escapes. -/
def hexDigitChar (n : Nat) : Char :=
  Char.ofNat (if n < 10 then 48 + n else 87 + n)

/-- Value of a hexadecimal digit character, accepting both cases. -/
def hexVal (c : Char) : Option Nat :=
  let t := c.toNat
  if 48 ≤ t ∧ t ≤ 57 then some (t - 48)
  else if 97 ≤ t ∧ t ≤ 102 then some (t - 87)
  else if 65 ≤ t ∧ t ≤ 70 then some (t - 55)
  else none

/-- JSON string escaping of a single character, following
`JSON.stringify`: quote, backslash, the short escapes for backspace,
tab, newline, form feed and carriage return, and `\u00xx` for the
remaining control characters. -/
def escChar (c : Char) : List Char :=
  if c = quoteC then [bslashC, quoteC]
  else if c = bslashC then [bslashC, bslashC]
  else if c = Char.ofNat 8 then [bslashC, 'b']
  else if c = Char.ofNat 9 then [bslashC, 't']
  else if c = Char.ofNat 10 then [bslashC, 'n']
  else if c = Char.ofNat 12 then [bslashC, 'f']
  else if c = Char.ofNat 13 then [bslashC, 'r']
  else if c.toNat < 32 then
    [bslashC, 'u', '0', '0', hexDigitChar (c.toNat / 16), hexDigitChar (c.toNat % 16)]
  else [c]

/-- JSON string escaping of a character sequence. -/
def escapeChars : List Char → List Char
  | [] => []
  | c :: cs => escChar c ++ escapeChars cs

/-- Decimal digits of a natural number (most significant first),
computed with explicit fuel so that the definition is structurally
recursive and kernel-reducible. -/
def natDigitsAux : Nat → Nat → List Char
  | 0, _ => []
  | fuel + 1, n =>
    if n < 10 then [Char.ofNat (48 + n)]
    else natDigitsAux fuel (n / 10) ++ [Char.ofNat (48 + n % 10)]

/-- Decimal digit characters of a natural number. -/
def natChars (n : Nat) : List Char := natDigitsAux (n + 1) n

/-- Decimal representation of an integer, as `JSON.stringify` prints
integral numbers. -/
def intChars (n : Int) : List Char :=
  if n < 0 then '-' :: natChars n.natAbs else natChars n.toNat

/-- Comma-separated concatenation of chunks, as between array elements
and object fields in `JSON.stringify` output. -/
def sepList : List (List Char) → List Char
  | [] => []
  | [x] => x
  | x :: y :: t => x ++ ',' :: sepList (y :: t)

/-- Fueled JSON serializer.  The fuel bounds the nesting depth; it is
consumed once per level, so any fuel strictly greater than the depth of
the value produces the untruncated `JSON.stringify` output. -/
def stringifyF : Nat → Json → List Char
  | 0, _ => []
  | fuel + 1, v =>
    match v with
    | Json.null => ['n', 'u', 'l', 'l']
    | Json.bool true => ['t', 'r', 'u', 'e']
    | Json.bool false => ['f', 'a', 'l', 's', 'e']
    | Json.num n => intChars n
    | Json.str s => quoteC :: escapeChars s.data ++ [quoteC]
    | Json.arr xs => '[' :: sepList (xs.map (stringifyF fuel)) ++ [']']
    | Json.obj fs =>
      lbraceC ::
        sepList (fs.map (fun kv =>
          (quoteC :: escapeChars kv.1.data ++ [quoteC]) ++ ':' :: stringifyF fuel kv.2))
        ++ [rbraceC]

mutual

/-- Node count of a JSON value; strictly dominates the nesting depth,
so it is a sufficient fuel for `stringifyF`. -/
def jsize : Json → Nat
  | Json.null => 1
  | Json.bool _ => 1
  | Json.num _ => 1
  | Json.str _ => 1
  | Json.arr xs => 1 + jsizeList xs
  | Json.obj fs => 1 + jsizeFields fs

/-- Total node count of a list of JSON values. -/
def jsizeList : List Json → Nat
  | [] => 0
  | x :: t => jsize x + jsizeList t

/-- Total node count of a JSON object field list. -/
def jsizeFields : List (String × Json) → Nat
  | [] => 0
  | kv :: t => jsize kv.2 + jsizeFields t

end

/-- Model of `JSON.stringify` on JSON values. -/
def jsonStringify (v : Json) : String := ⟨stringifyF (jsize v) v⟩

/-- JSON insignificant whitespace accepted by `JSON.parse`. -/
def isJsonWs (c : Char) : Bool :=
  c.toNat = 32 || c.toNat = 9 || c.toNat = 10 || c.toNat = 13

/-- Decimal digit test (by code point). -/
def isDigitC (c : Char) : Bool :=
  48 ≤ c.toNat && c.toNat ≤ 57

/-- Skip JSON insignificant whitespace. -/
def skipWs : List Char → List Char
  | [] => []
  | c :: cs => if isJsonWs c then skipWs cs else c :: cs

/-- Parse the body of a JSON string literal (after the opening quote),
returning the decoded characters and the remainder after the closing
quote.  The fuel is consumed once per decoded character. -/
def parseStringBody : Nat → List Char → Option (List Char × List Char)
  | 0, _ => none
  | fuel + 1, cs =>
    match cs with
    | [] => none
    | c :: rest =>
      if c = quoteC then some ([], rest)
      else if c = bslashC then
        match rest with
        | [] => none
        | e :: rest2 =>
          if e = quoteC then
            (parseStringBody fuel rest2).map (fun p => (quoteC :: p.1, p.2))
          else if e = bslashC then
            (parseStringBody fuel rest2).map (fun p => (bslashC :: p.1, p.2))
          else if e = '/' then
            (parseStringBody fuel rest2).map (fun p => ('/' :: p.1, p.2))
          else if e = 'b' then
            (parseStringBody fuel rest2).map (fun p => (Char.ofNat 8 :: p.1, p.2))
          else if e = 't' then
            (parseStringBody fuel rest2).map (fun p => (Char.ofNat 9 :: p.1, p.2))
          else if e = 'n' then
            (parseStringBody fuel rest2).map (fun p => (Char.ofNat 10 :: p.1, p.2))
          else if e = 'f' then
            (parseStringBody fuel rest2).map (fun p => (Char.ofNat 12 :: p.1, p.2))
          else if e = 'r' then
            (parseStringBody fuel rest2).map (fun p => (Char.ofNat 13 :: p.1, p.2))
          else if e = 'u' then
            match rest2 with
            | h1 :: h2 :: h3 :: h4 :: rest3 =>
              match hexVal h1, hexVal h2, hexVal h3, hexVal h4 with
              | some a, some b, some c2, some d =>
                (parseStringBody fuel rest3).map
                  (fun p => (Char.ofNat (a * 4096 + b * 256 + c2 * 16 + d) :: p.1, p.2))
              | _, _, _, _ => none
            | _ => none
          else none
      else if c.toNat < 32 then none
      else (parseStringBody fuel rest).map (fun p => (c :: p.1, p.2))

/-- Digit-sequence value accumulator. -/
def digitsToNat (ds : List Char) : Nat :=
  ds.foldl (fun a c => a * 10 + (c.toNat - 48)) 0

/-- Parse a nonempty run of decimal digits (maximal munch). -/
def parseDigits (cs : List Char) : Option (Nat × List Char) :=
  match cs.takeWhile isDigitC with
  | [] => none
  | d :: ds => some (digitsToNat (d :: ds), cs.dropWhile isDigitC)

/-- Parse a JSON integer literal (optional minus sign then digits). -/
def parseNum (cs : List Char) : Option (Json × List Char) :=
  match cs with
  | [] => none
  | c :: rest =>
    if c.toNat = 45 then (parseDigits rest).map (fun p => (Json.num (-(p.1 : Int)), p.2))
    else (parseDigits (c :: rest)).map (fun p => (Json.num (p.1 : Int), p.2))

/-- Parse the elements of a nonempty JSON array (after the opening
bracket), using `pv` for element values.  The fuel is consumed once per
element. -/
def parseElemsAux (pv : List Char → Option (Json × List Char)) :
    Nat → List Char → Option (List Json × List Char)
  | 0, _ => none
  | fuel + 1, cs =>
    match pv cs with
    | none => none
    | some (v, r) =>
      match skipWs r with
      | [] => none
      | d :: r2 =>
        if d = ',' then (parseElemsAux pv fuel r2).map (fun p => (v :: p.1, p.2))
        else if d = ']' then some ([v], r2)
        else none

/-- Parse the fields of a nonempty JSON object (after the opening
brace), using `pv` for field values. -/
def parseFieldsAux (pv : List Char → Option (Json × List Char)) :
    Nat → List Char → Option (List (String × Json) × List Char)
  | 0, _ => none
  | fuel + 1, cs =>
    match skipWs cs with
    | [] => none
    | c :: rest =>
      if c = quoteC then
        match parseStringBody (rest.length + 1) rest with
        | none => none
        | some (kcs, r1) =>
          match skipWs r1 with
          | [] => none
          | d :: r2 =>
            if d = ':' then
              match pv r2 with
              | none => none
              | some (v, r3) =>
                match skipWs r3 with
                | [] => none
                | d2 :: r4 =>
                  if d2 = ',' then
                    (parseFieldsAux pv fuel r4).map (fun p => ((⟨kcs⟩, v) :: p.1, p.2))
                  else if d2 = rbraceC then some ([(⟨kcs⟩, v)], r4)
                  else none
            else none
      else none

/-- Fueled JSON value parser (recursive descent).  The fuel bounds the
nesting depth. -/
def parseValue : Nat → List Char → Option (Json × List Char)
  | 0, _ => none
  | fuel + 1, cs0 =>
    match skipWs cs0 with
    | [] => none
    | c :: rest =>
      if c = quoteC then
        (parseStringBody (rest.length + 1) rest).map (fun p => (Json.str ⟨p.1⟩, p.2))
      else if c = '[' then
        match skipWs rest with
        | [] => none
        | d :: r2 =>
          if d = ']' then some (Json.arr [], r2)
          else (parseElemsAux (parseValue fuel) fuel (d :: r2)).map
            (fun p => (Json.arr p.1, p.2))
      else if c = lbraceC then
        match skipWs rest with
        | [] => none
        | d :: r2 =>
          if d = rbraceC then some (Json.obj [], r2)
          else (parseFieldsAux (parseValue fuel) fuel (d :: r2)).map
            (fun p => (Json.obj p.1, p.2))
      else if c = 'n' then
        match rest with
        | 'u' :: 'l' :: 'l' :: r => some (Json.null, r)
        | _ => none
      else if c = 't' then
        match rest with
        | 'r' :: 'u' :: 'e' :: r => some (Json.bool true, r)
        | _ => none
      else if c = 'f' then
        match rest with
        | 'a' :: 'l' :: 's' :: 'e' :: r => some (Json.bool false, r)
        | _ => none
      else if c.toNat = 45 ∨ isDigitC c then parseNum (c :: rest)
      else none

/-- Model of `JSON.parse`: parse one value, allow trailing whitespace,
return `none` (the model of a thrown `SyntaxError`) on any other
leftover input or parse failure. -/
def jsonParse (s : String) : Option Json :=
  match parseValue (s.data.length + 1) s.data with
  | some (v, rest) => if skipWs rest = [] then some v else none
  | none => none

/-- Delimiters that may legally follow a serialized JSON value: end of
input, a comma, a closing bracket or a closing brace. -/
def headOk : List Char → Prop
  | [] => True
  | c :: _ => c.toNat = 44 ∨ c.toNat = 93 ∨ c.toNat = 125

/-- Characters that may start a serialized JSON value: not whitespace
and not a closing delimiter or separator. -/
def goodHead (c : Char) : Prop :=
  isJsonWs c = false ∧ c.toNat ≠ 93 ∧ c.toNat ≠ 125 ∧ c.toNat ≠ 44

/-! ### JavaScript value helpers -/

/-- JavaScript property access `v[k]` on a parsed JSON value: `none`
models `undefined` (missing field, or access on a non-object).  With
duplicate keys the last occurrence wins, as in `JSON.parse`. -/
def jsGetField (v : Json) (k : String) : Option Json :=
  match v with
  | Json.obj fs => fs.foldl (fun acc kv => if kv.1 = k then some kv.2 else acc) none
  | _ => none

/-- JavaScript truthiness of a JSON value (`null`, `false`, `0` and
`""` are falsy; arrays and objects are always truthy). -/
def jsTruthy : Json → Bool
  | Json.null => false
  | Json.bool b => b
  | Json.num n => if n = 0 then false else true
  | Json.str s => if s = "" then false else true
  | Json.arr _ => true
  | Json.obj _ => true

/-- `typeof x === "number"` on an optional field value. -/
def isNumJ : Option Json → Bool
  | some (Json.num _) => true
  | _ => false

/-- `Array.isArray(x)` on an optional field value. -/
def isArrJ : Option Json → Bool
  | some (Json.arr _) => true
  | _ => false

/-- Numeric value of a field known to be a number. -/
def jsNumVal : Option Json → Int
  | some (Json.num n) => n
  | _ => 0

/-- Array value of a field known to be an array. -/
def jsArrVal : Option Json → List Json
  | some (Json.arr l) => l
  | _ => []

/-! ### AsyncStorage model

AsyncStorage is modelled as an association list from string keys to
string values; `getItem` returns the first binding. -/

/-- The storage state. -/
abbrev Store := List (String × String)

/-- `AsyncStorage.getItem`. -/
def getItem : Store → String → Option String
  | [], _ => none
  | (k, v) :: s, key => if k = key then some v else getItem s key

/-- `AsyncStorage.removeItem` (drops every binding of the key). -/
def removeItem : Store → String → Store
  | [], _ => []
  | kv :: t, key => if kv.1 = key then removeItem t key else kv :: removeItem t key

/-- `AsyncStorage.setItem` (replaces any existing binding). -/
def setItem (s : Store) (key val : String) : Store :=
  (key, val) :: removeItem s key

/-- `AsyncStorage.getAllKeys`. -/
def getAllKeys (s : Store) : List String := s.map Prod.fst

/-- `AsyncStorage.multiRemove` (drops every binding of every listed
key). -/
def multiRemove : Store → List String → Store
  | [], _ => []
  | kv :: t, ks => if kv.1 ∈ ks then multiRemove t ks else kv :: multiRemove t ks

/-- `String.prototype.startsWith`. -/
def strStartsWith (s base : String) : Bool := List.isPrefixOf base.data s.data

/-! ### Configuration and storage keys

From src/utils/config.ts (`CONFIG`, the version cited by the spec) and
src/utils/constants.ts (`STORAGE_KEYS`). -/

/-- `CONFIG.CHAT_EXPIRY_SECONDS` as shipped: `1440`, annotated "align
with backend TTL (seconds)". -/
def CHAT_EXPIRY_SECONDS : Int := 1440

/-- `EXPIRES_MS = CONFIG.CHAT_EXPIRY_SECONDS * 1000` from
src/utils/chatStorage.ts. -/
def EXPIRES_MS : Int := CHAT_EXPIRY_SECONDS * 1000

/-- `STORAGE_KEYS.MESSAGES_PREFIX` (the key namespace of per-session
message records). -/
def MSGS_KEY_BASE : String := "deen:msgs:"

/-- `STORAGE_KEYS.MESSAGES_VERSION`. -/
def MESSAGES_VERSION : String := "v1"

/-- `STORAGE_KEYS.SESSION_ID`, the session-id pointer key. -/
def SESSION_KEY : String := "deen:sessionId"

/-- `keyFor(sessionId)` from src/utils/chatStorage.ts. -/
def keyFor (sessionId : String) : String :=
  MSGS_KEY_BASE ++ sessionId ++ ":" ++ MESSAGES_VERSION

/-! ### Chat storage (src/utils/chatStorage.ts) -/

/-- A chat `Message`: sender, text and an optional `references` array.
Reference items are kept as raw JSON objects since `compactMessage`
projects fields dynamically. -/
structure Message where
  sender : String
  text : String
  references : Option (List Json)

/-- The explicit allow-list of reference fields kept by
`compactMessage`, in source order. -/
def refAllowList : List String :=
  ["author", "book_title", "chapter_title", "hadith_no", "reference", "hadith_url",
   "text", "text_ar", "sect", "collection", "volume", "book_number", "chapter_number",
   "grade_en", "grade_ar", "hadith_id", "lang"]

/-- `MAX_REFS_PER_MSG` from src/utils/chatStorage.ts. -/
def MAX_REFS_PER_MSG : Nat := 10

/-- Projection of one reference onto the allow-list: the object literal
built by `compactMessage` keeps an allow-listed field exactly when the
source reference has it (absent fields are `undefined` and are dropped
by `JSON.stringify`). -/
def compactRef (r : Json) : Json :=
  Json.obj (refAllowList.filterMap (fun fld => (jsGetField r fld).map (fun v => (fld, v))))

/-- `compactMessage` from src/utils/chatStorage.ts: keeps sender and
text (`msg.text || ""` is the identity on strings), and at most
`MAX_REFS_PER_MSG` compacted references when a nonempty reference array
is present. -/
def compactMessage (m : Message) : Message :=
  { sender := m.sender
    text := m.text
    references :=
      match m.references with
      | some rs => if rs.isEmpty then none else some ((rs.take MAX_REFS_PER_MSG).map compactRef)
      | none => none }

/-- JSON value of a message as serialized by `JSON.stringify` (the
`references` property is absent when not set). -/
def messageToJson (m : Message) : Json :=
  Json.obj ([("sender", Json.str m.sender), ("text", Json.str m.text)] ++
    (match m.references with
     | some rs => [("references", Json.arr rs)]
     | none => []))

/-- The `StoredData` payload shape `\x7b ts, messages \x7d`. -/
def storedJson (ts : Int) (messages : List Json) : Json :=
  Json.obj [("ts", Json.num ts), ("messages", Json.arr messages)]

/-- `loadMessages` from src/utils/chatStorage.ts: returns the stored
message list and the resulting storage state.  Missing key or falsy raw
value returns `[]` with storage untouched; unparsable or ill-shaped
records and expired records are deleted and `[]` is returned. -/
def loadMessages (nowMs : Int) (store : Store) (sessionId : String) : List Json × Store :=
  match getItem store (keyFor sessionId) with
  | none => ([], store)
  | some raw =>
    if raw = "" then ([], store)
    else
      match jsonParse raw with
      | none => ([], removeItem store (keyFor sessionId))
      | some parsed =>
        if jsTruthy parsed && isNumJ (jsGetField parsed "ts")
            && isArrJ (jsGetField parsed "messages") then
          if nowMs - jsNumVal (jsGetField parsed "ts") > EXPIRES_MS then
            ([], removeItem store (keyFor sessionId))
          else (jsArrVal (jsGetField parsed "messages"), store)
        else ([], removeItem store (keyFor sessionId))

/-- The per-key deletion test of `purgeExpiredSessions`: falsy raw
value, unparsable JSON, falsy parse result, non-numeric `ts`, or
`ts < cutoff`. -/
def purgeShouldDelete (cutoff : Int) (raw : Option String) : Bool :=
  match raw with
  | none => true
  | some r =>
    if r = "" then true
    else
      match jsonParse r with
      | none => true
      | some parsed =>
        if jsTruthy parsed && isNumJ (jsGetField parsed "ts") then
          if jsNumVal (jsGetField parsed "ts") < cutoff then true else false
        else true

/-- `purgeExpiredSessions` from src/utils/chatStorage.ts: scans all
keys in the message namespace and removes the expired or invalid
ones. -/
def purgeExpiredSessions (nowMs : Int) (store : Store) : Store :=
  let cutoff := nowMs - EXPIRES_MS
  let messageKeys := (getAllKeys store).filter (fun k => strStartsWith k MSGS_KEY_BASE)
  let toDelete := messageKeys.filter (fun k => purgeShouldDelete cutoff (getItem store k))
  multiRemove store toDelete

/-- `saveMessages` from src/utils/chatStorage.ts: no-op on a falsy
session id, otherwise overwrites the record with a fresh timestamp and
the compacted messages. -/
def saveMessages (nowMs : Int) (store : Store) (sessionId : String)
    (messages : List Message) : Store :=
  if sessionId = "" then store
  else
    setItem store (keyFor sessionId)
      (jsonStringify (storedJson nowMs (messages.map (fun m => messageToJson (compactMessage m)))))

/-- `startNewConversation` from the api utilities: generates a fresh id
(modelled as the `freshId` argument, since `uuid.v4()` is
nondeterministic) and persists it under the session pointer key. -/
def startNewConversation (freshId : String) (store : Store) : String × Store :=
  (freshId, setItem store SESSION_KEY freshId)

/-! ### Streaming model (sendChatMessageStream / the XHR accumulator) -/

/-- The mutable state of the streaming closure in
`sendChatMessageStream`: `accumulatedText` and `lastProcessedIndex`. -/
structure StreamAcc where
  accumulatedText : String
  lastProcessedIndex : Nat

/-- Initial closure state (`""` and `0`). -/
def initStream : StreamAcc := ⟨"", 0⟩

/-- One `xhr.onprogress` firing with observed `xhr.responseText =
currentText`: emits `onChunk(currentText)` only when the observed
length exceeds `lastProcessedIndex`. -/
def onprogressStep (s : StreamAcc) (currentText : String) : StreamAcc × Option String :=
  if s.lastProcessedIndex < currentText.length then
    (⟨currentText, currentText.length⟩, some currentText)
  else (s, none)

/-- Folding a sequence of `onprogress` observations, collecting the
emitted chunks in order. -/
def runProgress : StreamAcc → List String → StreamAcc × List String
  | s, [] => (s, [])
  | s, t :: ts =>
    let p := onprogressStep s t
    let r := runProgress p.1 ts
    (r.1, p.2.toList ++ r.2)

/-- The final `xhr.onload` emission: `onChunk(finalText)` only when the
final text is longer than the accumulated text. -/
def onloadEmit (s : StreamAcc) (finalText : String) : List String :=
  if s.accumulatedText.length < finalText.length then [finalText] else []

/-- All `onChunk` emissions of one `sendChatMessageStream` run, given
the observed `responseText` at each progress event and at load. -/
def streamEmissions (progressTexts : List String) (finalText : String) : List String :=
  let r := runProgress initStream progressTexts
  r.2 ++ onloadEmit r.1 finalText

/-! ### XMLHttpRequest configuration (timeout behaviour) -/

/-- The request configuration a streaming helper installs on its
`XMLHttpRequest` before `send`: method, url, `xhr.timeout`
(milliseconds; `0` means no timeout, the XHR default), which handlers
are installed, and the rejection message of `ontimeout` when
present. -/
structure XhrConfig where
  method : String
  url : String
  timeoutMs : Nat
  hasOnProgress : Bool
  hasOnLoad : Bool
  hasOnError : Bool
  ontimeoutRejectMsg : Option String

/-- A fresh `XMLHttpRequest`: no timeout (`0`), no handlers. -/
def xhrNew : XhrConfig := ⟨"", "", 0, false, false, false, none⟩

/-- The configuration built by `sendChatMessageStream`
(src/utils/chatStorage.ts): sets `xhr.timeout = 30000` and installs
`onprogress`, `onload`, `onerror` and an `ontimeout` handler rejecting
with "Request timeout". -/
def chatStreamXhr (apiBaseUrl : String) : XhrConfig :=
  ⟨"POST", apiBaseUrl ++ "/chat/stream", 30000, true, true, true, some "Request timeout"⟩

/-- The configuration built by `elaborateSelectionStream`
(src/utils/chatStorage.ts): installs `onprogress`, `onload` and
`onerror`, but never assigns `xhr.timeout` (so it keeps the default
`0`, meaning no timeout) and installs no `ontimeout` handler. -/
def selectionStreamXhr (apiBaseUrl : String) : XhrConfig :=
  ⟨"POST", apiBaseUrl ++ "/hikmah/elaborate/stream", 0, true, true, true, none⟩

/-! ### Stream response trailer parsing -/

/-- JavaScript `String.prototype.trim` whitespace (WhiteSpace and
LineTerminator code points). -/
def isJsTrimWs (c : Char) : Bool :=
  let t := c.toNat
  t = 9 || t = 10 || t = 11 || t = 12 || t = 13 || t = 32 || t = 160 || t = 5760 ||
    (8192 ≤ t && t ≤ 8202) || t = 8232 || t = 8233 || t = 8239 || t = 8287 ||
    t = 12288 || t = 65279

/-- Trim JS whitespace from both ends of a character list. -/
def trimChars (cs : List Char) : List Char :=
  ((cs.dropWhile isJsTrimWs).reverse.dropWhile isJsTrimWs).reverse

/-- Model of `String.prototype.trim`. -/
def jsTrim (s : String) : String := ⟨trimChars s.data⟩

/-- First index at which `pat` occurs in a character list
(`String.prototype.indexOf`). -/
def findSub : List Char → List Char → Option Nat
  | [], pat => if pat.isEmpty then some 0 else none
  | c :: rest, pat =>
    if pat.isPrefixOf (c :: rest) then some 0
    else (findSub rest pat).map (fun i => i + 1)

/-- The trailer separator token of `parseStreamResponse`. -/
def SEPARATOR : String := "[REFERENCES]"

/-- `parseStreamResponse` from src/utils/chatStorage.ts: split the
full streamed message at the first `[REFERENCES]` marker, trim the
leading text, parse the trailer as JSON, and accept either a bare
array or an object with a `references` array; any parse failure yields
an empty reference list. -/
def parseStreamResponse (fullMessage : String) : String × List Json :=
  match findSub fullMessage.data SEPARATOR.data with
  | none => (jsTrim fullMessage, [])
  | some i =>
    let responseText := jsTrim ⟨fullMessage.data.take i⟩
    let afterMarker := jsTrim ⟨fullMessage.data.drop (i + SEPARATOR.data.length)⟩
    match jsonParse afterMarker with
    | none => (responseText, [])
    | some parsed =>
      match parsed with
      | Json.arr xs => (responseText, xs)
      | _ =>
        match jsGetField parsed "references" with
        | some (Json.arr xs) => (responseText, xs)
        | _ => (responseText, [])

/-! ### Hikmah progress store (src/utils/constants.ts sibling module) -/

/-- The hikmah storage root `ROOT`. -/
def HIKMAH_ROOT : String := "deen:hikmah:v1:"

/-- The progress key for a tree. -/
def progressKey (treeId : String) : String := HIKMAH_ROOT ++ "progress:" ++ treeId

/-- `Array.from(new Set(xs))`: first-occurrence deduplication in
insertion order. -/
def jsSetDedup (xs : List String) : List String :=
  xs.foldl (fun acc x => if x ∈ acc then acc else acc ++ [x]) []

/-- The persisted progress payload. -/
def progressJson (ids : List String) (ts : Int) : Json :=
  Json.obj [("completedLessonIds", Json.arr (ids.map Json.str)), ("ts", Json.num ts)]

/-- `setProgress` from the hikmah storage module: deduplicates the
lesson ids through a `Set` before persisting. -/
def setProgress (nowMs : Int) (store : Store) (treeId : String)
    (completedLessonIds : List String) : Store :=
  setItem store (progressKey treeId)
    (jsonStringify (progressJson (jsSetDedup completedLessonIds) nowMs))

/-- The default progress value `\x7b completedLessonIds: [], ts: 0 \x7d`. -/
def defaultProgress : Json := Json.obj [("completedLessonIds", Json.arr []), ("ts", Json.num 0)]

/-- `getProgress` from the hikmah storage module: returns the parsed
record when its `completedLessonIds` field is truthy, the default
otherwise (including on parse failure). -/
def getProgress (store : Store) (treeId : String) : Json :=
  match getItem store (progressKey treeId) with
  | none => defaultProgress
  | some raw =>
    if raw = "" then defaultProgress
    else
      match jsonParse raw with
      | none => defaultProgress
      | some parsed =>
        match jsGetField parsed "completedLessonIds" with
        | none => defaultProgress
        | some v => if jsTruthy v then parsed else defaultProgress

/-- The marker never occurs (at any offset) inside `s`. -/
def noMarker (s : String) : Prop :=
  ∀ p, SEPARATOR.data.isPrefixOf (s.data.drop p) = false

/-- The wrapped item list of a trailer value (the bare list, or the
list wrapped in the object's single array field). -/
def itemsOf : Json → List Json
  | Json.arr xs => xs
  | Json.obj [(_, Json.arr xs)] => xs
  | _ => []

/-! ### Basic facts about characters, whitespace and digit sequences -/

/-- Characters with equal code points are equal. -/
theorem charEq_of_toNat {c d : Char} (h : c.toNat = d.toNat) : c = d :=
  Char.eq_of_val_eq (UInt32.ext h)

/-- Characters with distinct code points are distinct. -/
theorem charNe_of_toNat {c d : Char} (h : c.toNat ≠ d.toNat) : c ≠ d :=
  fun he => h (he ▸ rfl)

/-- `skipWs` leaves a list alone when its head is not JSON whitespace. -/
theorem skipWs_cons_not {c : Char} (cs : List Char) (h : isJsonWs c = false) :
    skipWs (c :: cs) = c :: cs := by
  simp [skipWs, h]

/-- A delimiter character is not a digit. -/
theorem headOk_head_not_digit {c : Char} {t : List Char} (h : headOk (c :: t)) :
    isDigitC c = false := by
  simp only [headOk] at h
  simp only [isDigitC, Bool.and_eq_false_iff, decide_eq_false_iff_not]
  omega

/-- `List.takeWhile` and `List.dropWhile` split an all-`p` block from a
remainder whose head fails `p`. -/
theorem takeWhile_dropWhile_app {p : Char → Bool} :
    ∀ (ds rest : List Char), (∀ d ∈ ds, p d = true) →
    (∀ c t, rest = c :: t → p c = false) →
    (ds ++ rest).takeWhile p = ds ∧ (ds ++ rest).dropWhile p = rest := by
  intro ds
  induction ds with
  | nil =>
    intro rest _ hr
    cases rest with
    | nil => simp
    | cons c t => simp [List.takeWhile, List.dropWhile, hr c t rfl]
  | cons d ds ih =>
    intro rest hds hr
    have hd : p d = true := hds d (by simp)
    have := ih rest (fun x hx => hds x (by simp [hx])) hr
    simp [List.takeWhile, List.dropWhile, hd, this.1, this.2]

/-- Digit characters emitted by `natDigitsAux` have digit code points. -/
theorem natDigitsAux_digits :
    ∀ f n, n < f → ∀ d ∈ natDigitsAux f n, isDigitC d = true := by
  intro f
  induction f with
  | zero => intro n h; omega
  | succ f ih =>
    intro n _ d hd
    by_cases h10 : n < 10
    · simp only [natDigitsAux, if_pos h10, List.mem_singleton] at hd
      subst hd
      have : (Char.ofNat (48 + n)).toNat = 48 + n := by
        have : ∀ m, m < 10 → (Char.ofNat (48 + m)).toNat = 48 + m := by decide
        exact this n h10
      simp [isDigitC, this]
      omega
    · simp only [natDigitsAux, if_neg h10, List.mem_append, List.mem_singleton] at hd
      rcases hd with hd | hd
      · exact ih (n / 10) (by omega) d hd
      · subst hd
        have h9 : n % 10 < 10 := Nat.mod_lt _ (by omega)
        have : (Char.ofNat (48 + n % 10)).toNat = 48 + n % 10 := by
          have : ∀ m, m < 10 → (Char.ofNat (48 + m)).toNat = 48 + m := by decide
          exact this _ h9
        simp [isDigitC, this]
        omega

/-- `natDigitsAux` never returns the empty list when it has fuel. -/
theorem natDigitsAux_ne_nil (f n : Nat) (h : 0 < f) : natDigitsAux f n ≠ [] := by
  cases f with
  | zero => omega
  | succ f =>
    by_cases h10 : n < 10 <;> simp [natDigitsAux, h10]

/-- Folding the digit accumulator over `natDigitsAux f n` recovers `n`
(shifted past an arbitrary prefix accumulator). -/
theorem foldl_natDigitsAux :
    ∀ f n a, n < f →
    List.foldl (fun x c => x * 10 + (c.toNat - 48)) a (natDigitsAux f n)
      = a * 10 ^ (natDigitsAux f n).length + n := by
  intro f
  induction f with
  | zero => intro n a h; omega
  | succ f ih =>
    intro n a _
    by_cases h10 : n < 10
    · have hv : (Char.ofNat (48 + n)).toNat = 48 + n := by
        have : ∀ m, m < 10 → (Char.ofNat (48 + m)).toNat = 48 + m := by decide
        exact this n h10
      simp [natDigitsAux, if_pos h10, hv]
    · have h9 : n % 10 < 10 := Nat.mod_lt _ (by omega)
      have hv : (Char.ofNat (48 + n % 10)).toNat = 48 + n % 10 := by
        have : ∀ m, m < 10 → (Char.ofNat (48 + m)).toNat = 48 + m := by decide
        exact this _ h9
      have hrec := ih (n / 10) a (by omega)
      simp only [natDigitsAux, if_neg h10, List.foldl_append, List.foldl_cons,
        List.foldl_nil, hrec, List.length_append, List.length_cons, List.length_nil, hv]
      have : a * 10 ^ ((natDigitsAux f (n / 10)).length + (0 + 1))
          = a * 10 ^ (natDigitsAux f (n / 10)).length * 10 := by
        ring
      rw [this]
      have hmod := Nat.div_add_mod n 10
      omega

/-- `digitsToNat` inverts `natChars`. -/
theorem digitsToNat_natChars (n : Nat) : digitsToNat (natChars n) = n := by
  have := foldl_natDigitsAux (n + 1) n 0 (by omega)
  simpa [digitsToNat, natChars] using this

/-- All characters of `natChars` are digits. -/
theorem natChars_digits (n : Nat) : ∀ d ∈ natChars n, isDigitC d = true :=
  natDigitsAux_digits (n + 1) n (by omega)

/-- `natChars` is nonempty. -/
theorem natChars_ne_nil (n : Nat) : natChars n ≠ [] :=
  natDigitsAux_ne_nil (n + 1) n (by omega)

/-- `parseDigits` consumes exactly an emitted digit block when the
remainder starts with a delimiter. -/
theorem parseDigits_natChars (n : Nat) (rest : List Char) (h : headOk rest) :
    parseDigits (natChars n ++ rest) = some (n, rest) := by
  have hsplit := takeWhile_dropWhile_app (p := isDigitC) (natChars n) rest
    (natChars_digits n)
    (fun c t ht => by subst ht; exact headOk_head_not_digit h)
  simp only [parseDigits, hsplit.1, hsplit.2]
  cases hn : natChars n with
  | nil => exact absurd hn (natChars_ne_nil n)
  | cons d ds =>
    show some (digitsToNat (d :: ds), rest) = some (n, rest)
    rw [← hn, digitsToNat_natChars]

/-- `parseNum` inverts `intChars` when followed by a delimiter. -/
theorem parseNum_intChars (n : Int) (rest : List Char) (h : headOk rest) :
    parseNum (intChars n ++ rest) = some (Json.num n, rest) := by
  by_cases hn : n < 0
  · have hd := parseDigits_natChars n.natAbs rest h
    simp only [intChars, if_pos hn, List.cons_append, parseNum]
    rw [if_pos (by decide)]
    have hval : (-(n.natAbs : Int)) = n := by omega
    rw [hd]
    simp only [Option.map_some']
    rw [hval]
  · have hd := parseDigits_natChars n.toNat rest h
    simp only [intChars, if_neg hn]
    cases hc : natChars n.toNat with
    | nil => exact absurd hc (natChars_ne_nil _)
    | cons d ds =>
      have hdig : isDigitC d = true := by
        have := natChars_digits n.toNat d (by rw [hc]; simp)
        exact this
      have hd45 : ¬ d.toNat = 45 := by
        simp only [isDigitC, Bool.and_eq_true, decide_eq_true_eq] at hdig
        omega
      rw [hc] at hd
      simp only [List.cons_append, parseNum, if_neg hd45]
      have hval : ((n.toNat : Int)) = n := by omega
      rw [show d :: (ds ++ rest) = (d :: ds) ++ rest from rfl, hd]
      simp only [Option.map_some']
      rw [hval]

/-- Hex digits emitted for control-character escapes read back to their
value. -/
theorem hexVal_hexDigitChar : ∀ m, m < 16 → hexVal (hexDigitChar m) = some m := by
  decide

/-- `parseStringBody` inverts `escapeChars` up to the closing quote. -/
theorem parseStringBody_escape :
    ∀ (cs : List Char) (fuel : Nat) (rest : List Char), cs.length < fuel →
    parseStringBody fuel (escapeChars cs ++ (quoteC :: rest)) = some (cs, rest) := by
  intro cs
  induction cs with
  | nil =>
    intro fuel rest hf
    cases fuel with
    | zero => omega
    | succ f => simp [escapeChars, parseStringBody]
  | cons c cs ih =>
    intro fuel rest hf
    cases fuel with
    | zero => simp at hf
    | succ f =>
      have hrec := ih f rest (by simp at hf; omega)
      by_cases h1 : c = quoteC
      · subst h1
        rw [show escapeChars (quoteC :: cs) = bslashC :: quoteC :: escapeChars cs from by
          simp [escapeChars, escChar]]
        simp only [List.cons_append]
        simp +decide [parseStringBody, hrec]
      · by_cases h2 : c = bslashC
        · subst h2
          rw [show escapeChars (bslashC :: cs) = bslashC :: bslashC :: escapeChars cs from by
            simp +decide [escapeChars, escChar]]
          simp only [List.cons_append]
          simp +decide [parseStringBody, hrec]
        · by_cases h3 : c = Char.ofNat 8
          · subst h3
            rw [show escapeChars (Char.ofNat 8 :: cs) = bslashC :: 'b' :: escapeChars cs from by
              simp +decide [escapeChars, escChar]]
            simp only [List.cons_append]
            simp +decide [parseStringBody, hrec]
          · by_cases h4 : c = Char.ofNat 9
            · subst h4
              rw [show escapeChars (Char.ofNat 9 :: cs) = bslashC :: 't' :: escapeChars cs from by
                simp +decide [escapeChars, escChar]]
              simp only [List.cons_append]
              simp +decide [parseStringBody, hrec]
            · by_cases h5 : c = Char.ofNat 10
              · subst h5
                rw [show escapeChars (Char.ofNat 10 :: cs)
                    = bslashC :: 'n' :: escapeChars cs from by
                  simp +decide [escapeChars, escChar]]
                simp only [List.cons_append]
                simp +decide [parseStringBody, hrec]
              · by_cases h6 : c = Char.ofNat 12
                · subst h6
                  rw [show escapeChars (Char.ofNat 12 :: cs)
                      = bslashC :: 'f' :: escapeChars cs from by
                    simp +decide [escapeChars, escChar]]
                  simp only [List.cons_append]
                  simp +decide [parseStringBody, hrec]
                · by_cases h7 : c = Char.ofNat 13
                  · subst h7
                    rw [show escapeChars (Char.ofNat 13 :: cs)
                        = bslashC :: 'r' :: escapeChars cs from by
                      simp +decide [escapeChars, escChar]]
                    simp only [List.cons_append]
                    simp +decide [parseStringBody, hrec]
                  · by_cases h8 : c.toNat < 32
                    · rw [show escapeChars (c :: cs)
                          = bslashC :: 'u' :: '0' :: '0' :: hexDigitChar (c.toNat / 16)
                            :: hexDigitChar (c.toNat % 16) :: escapeChars cs from by
                        simp [escapeChars, escChar, h1, h2, h3, h4, h5, h6, h7, if_pos h8]]
                      have hx1 : hexVal (hexDigitChar (c.toNat / 16)) = some (c.toNat / 16) :=
                        hexVal_hexDigitChar _ (by omega)
                      have hx2 : hexVal (hexDigitChar (c.toNat % 16)) = some (c.toNat % 16) :=
                        hexVal_hexDigitChar _ (by omega)
                      have harith : c.toNat / 16 * 16 + c.toNat % 16 = c.toNat := by omega
                      have hx0 : hexVal '0' = some 0 := by decide
                      simp only [List.cons_append]
                      simp +decide [parseStringBody, hx0, hx1, hx2, harith, Char.ofNat_toNat, hrec]
                    · rw [show escapeChars (c :: cs) = c :: escapeChars cs from by
                        simp [escapeChars, escChar, h1, h2, h3, h4, h5, h6, h7, if_neg h8]]
                      simp only [List.cons_append, parseStringBody]
                      rw [if_neg h1, if_neg h2, if_neg h8, hrec]
                      rfl

/-! ### Shape and size facts about the serializer output -/

/-- Every JSON value has positive node count. -/
theorem jsize_pos (v : Json) : 1 ≤ jsize v := by
  cases v <;> simp [jsize]

/-- A list member's node count is bounded by the list's. -/
theorem jsizeList_mem {x : Json} : ∀ {xs : List Json}, x ∈ xs → jsize x ≤ jsizeList xs := by
  intro xs
  induction xs with
  | nil => intro h; simp at h
  | cons y t ih =>
    intro h
    rcases List.mem_cons.mp h with h | h
    · subst h; simp [jsizeList]
    · have := ih h
      simp [jsizeList]
      omega

/-- A field value's node count is bounded by the field list's. -/
theorem jsizeFields_mem {kv : String × Json} :
    ∀ {fs : List (String × Json)}, kv ∈ fs → jsize kv.2 ≤ jsizeFields fs := by
  intro fs
  induction fs with
  | nil => intro h; simp at h
  | cons y t ih =>
    intro h
    rcases List.mem_cons.mp h with h | h
    · subst h; simp [jsizeFields]
    · have := ih h
      simp [jsizeFields]
      omega

/-- Rebuilding a string from its character data is the identity. -/
theorem stringMk_data (s : String) : (⟨s.data⟩ : String) = s := rfl

/-- A digit is a good head character. -/
theorem goodHead_of_digit {c : Char} (h : isDigitC c = true) : goodHead c := by
  simp only [isDigitC, Bool.and_eq_true, decide_eq_true_eq] at h
  refine ⟨?_, by omega, by omega, by omega⟩
  simp only [isJsonWs, Bool.or_eq_false_iff, decide_eq_false_iff_not]
  omega

/-- The serializer's output starts with a good head character (given
fuel). -/
theorem stringify_head (v : Json) (sf : Nat) (h : 0 < sf) :
    ∃ c t, stringifyF sf v = c :: t ∧ goodHead c := by
  cases sf with
  | zero => omega
  | succ f =>
    cases v with
    | null => exact ⟨'n', _, rfl, by simp [goodHead, isJsonWs]⟩
    | bool b =>
      cases b with
      | true => exact ⟨'t', _, rfl, by simp [goodHead, isJsonWs]⟩
      | false => exact ⟨'f', _, rfl, by simp [goodHead, isJsonWs]⟩
    | num n =>
      by_cases hn : n < 0
      · refine ⟨'-', natChars n.natAbs, ?_, by simp [goodHead, isJsonWs]⟩
        simp [stringifyF, intChars, if_pos hn]
      · cases hc : natChars n.toNat with
        | nil => exact absurd hc (natChars_ne_nil _)
        | cons d ds =>
          refine ⟨d, ds, ?_, goodHead_of_digit (natChars_digits n.toNat d (by rw [hc]; simp))⟩
          simp [stringifyF, intChars, if_neg hn, hc]
    | str s => exact ⟨quoteC, _, rfl, by simp [goodHead, isJsonWs, quoteC]⟩
    | arr xs => exact ⟨'[', _, rfl, by simp [goodHead, isJsonWs]⟩
    | obj fs => exact ⟨lbraceC, _, rfl, by simp [goodHead, isJsonWs, lbraceC]⟩

/-- Serializer output is nonempty (given fuel). -/
theorem stringify_ne_nil (v : Json) (sf : Nat) (h : 0 < sf) : stringifyF sf v ≠ [] := by
  obtain ⟨c, t, hct, _⟩ := stringify_head v sf h
  simp [hct]

/-- Escaping a character yields at least one character. -/
theorem escChar_len_pos (c : Char) : 1 ≤ (escChar c).length := by
  simp only [escChar]
  split_ifs <;> simp

/-- Escaping cannot shrink a character sequence. -/
theorem escapeChars_len : ∀ cs : List Char, cs.length ≤ (escapeChars cs).length := by
  intro cs
  induction cs with
  | nil => simp [escapeChars]
  | cons c t ih =>
    have := escChar_len_pos c
    simp only [escapeChars, List.length_append, List.length_cons]
    omega

/-- A chunk's length is bounded by the separated concatenation's. -/
theorem sepList_mem_len {l : List Char} :
    ∀ {L : List (List Char)}, l ∈ L → l.length ≤ (sepList L).length := by
  intro L
  induction L with
  | nil => intro h; simp at h
  | cons x t ih =>
    intro h
    cases t with
    | nil =>
      rcases List.mem_cons.mp h with h | h
      · subst h; simp [sepList]
      · simp at h
    | cons y tt =>
      rcases List.mem_cons.mp h with h | h
      · subst h; simp [sepList]
      · have := ih h
        simp only [sepList, List.length_append, List.length_cons]
        omega

/-- The number of chunks is bounded by the separated concatenation's
length when every chunk is nonempty. -/
theorem sepList_count_len :
    ∀ {L : List (List Char)}, (∀ l ∈ L, l ≠ []) → L.length ≤ (sepList L).length := by
  intro L
  induction L with
  | nil => intro _; simp
  | cons x t ih =>
    intro h
    have hx : x ≠ [] := h x (by simp)
    have hxlen : 1 ≤ x.length := by
      cases x with
      | nil => exact absurd rfl hx
      | cons _ _ => simp
    cases t with
    | nil => simpa [sepList] using hxlen
    | cons y tt =>
      have := ih (fun l hl => h l (by simp [hl]))
      simp only [sepList, List.length_append, List.length_cons] at this ⊢
      omega

/-! ### Parser inversion for arrays and objects -/

/-- `parseElemsAux` inverts a comma-separated serialization of a
nonempty element list, given a correct element parser. -/
theorem parseElemsAux_inv (pv : List Char → Option (Json × List Char)) (strF : Json → List Char) :
    ∀ (xs : List Json) (g : Nat) (rest : List Char), xs ≠ [] → xs.length ≤ g →
    (∀ x ∈ xs, ∀ r, headOk r → pv (strF x ++ r) = some (x, r)) →
    headOk rest →
    parseElemsAux pv g (sepList (xs.map strF) ++ (']' :: rest)) = some (xs, rest) := by
  intro xs
  induction xs with
  | nil => intro g rest hne; exact absurd rfl hne
  | cons x t ih =>
    intro g rest _ hg hpv hrest
    cases g with
    | zero => simp at hg
    | succ g =>
      cases t with
      | nil =>
        have h1 := hpv x (by simp) (']' :: rest) (by simp [headOk])
        simp only [List.map_cons, List.map_nil, sepList, parseElemsAux, h1]
        rw [skipWs_cons_not _ (by decide)]
        simp +decide
      | cons y tt =>
        have hih := ih g rest (by simp) (by simp at hg ⊢; omega)
          (fun z hz => hpv z (by simp [List.mem_cons] at hz ⊢; tauto)) hrest
        simp only [List.map_cons] at hih
        have h1 := hpv x (by simp)
          (',' :: (sepList ((y :: tt).map strF) ++ (']' :: rest))) (by simp [headOk])
        simp only [List.map_cons, sepList, List.cons_append, List.append_assoc] at h1 ⊢
        simp only [parseElemsAux, h1]
        rw [skipWs_cons_not _ (by decide)]
        simp +decide only [if_pos]
        rw [hih]
        rfl

/-- `parseStringBody` at its self-computed fuel inverts `escapeChars`. -/
theorem parseStringBody_escape_self (cs rest : List Char) :
    parseStringBody ((escapeChars cs ++ (quoteC :: rest)).length + 1)
      (escapeChars cs ++ (quoteC :: rest)) = some (cs, rest) := by
  refine parseStringBody_escape cs _ rest ?_
  have := escapeChars_len cs
  simp only [List.length_append, List.length_cons]
  omega

/-- `parseFieldsAux` inverts a comma-separated serialization of a
nonempty field list, given a correct value parser. -/
theorem parseFieldsAux_inv (pv : List Char → Option (Json × List Char)) (strF : Json → List Char) :
    ∀ (fs : List (String × Json)) (g : Nat) (rest : List Char), fs ≠ [] → fs.length ≤ g →
    (∀ kv ∈ fs, ∀ r, headOk r → pv (strF kv.2 ++ r) = some (kv.2, r)) →
    headOk rest →
    parseFieldsAux pv g
      (sepList (fs.map (fun kv => (quoteC :: escapeChars kv.1.data ++ [quoteC]) ++ ':' :: strF kv.2))
        ++ (rbraceC :: rest)) = some (fs, rest) := by
  intro fs
  induction fs with
  | nil => intro g rest hne; exact absurd rfl hne
  | cons kv t ih =>
    intro g rest _ hg hpv hrest
    cases g with
    | zero => simp at hg
    | succ g =>
      cases t with
      | nil =>
        have h1 := hpv kv (by simp) (rbraceC :: rest) (by simp +decide [headOk, rbraceC])
        simp only [List.map_cons, List.map_nil, sepList, List.cons_append, List.append_assoc,
          List.singleton_append, List.nil_append] at h1 ⊢
        simp +decide [parseFieldsAux, skipWs, parseStringBody_escape_self, h1, stringMk_data,
          -List.length_append, -List.length_cons]
      | cons kv2 tt =>
        have hih := ih g rest (by simp) (by simp at hg ⊢; omega)
          (fun z hz => hpv z (by simp [List.mem_cons] at hz ⊢; tauto)) hrest
        simp only [List.map_cons, sepList, List.cons_append, List.append_assoc,
          List.singleton_append, List.nil_append] at hih
        have h1 := hpv kv (by simp)
          (',' :: (sepList ((kv2 :: tt).map
              (fun kv => (quoteC :: escapeChars kv.1.data ++ [quoteC]) ++ ':' :: strF kv.2))
            ++ (rbraceC :: rest))) (by simp [headOk])
        simp only [List.map_cons, sepList, List.cons_append, List.append_assoc,
          List.singleton_append, List.nil_append] at h1
        simp only [List.map_cons, sepList, List.cons_append, List.append_assoc,
          List.singleton_append, List.nil_append]
        simp +decide [parseFieldsAux, skipWs, parseStringBody_escape_self, h1, hih,
          stringMk_data, -List.length_append, -List.length_cons]

/-- The number dispatch of `parseValue`: a minus sign or digit head
routes to `parseNum`. -/
theorem parseValue_dispatch_num (q : Nat) (c : Char) (t : List Char)
    (h : c.toNat = 45 ∨ (48 ≤ c.toNat ∧ c.toNat ≤ 57)) :
    parseValue (q + 1) (c :: t) = parseNum (c :: t) := by
  have hws : isJsonWs c = false := by
    simp only [isJsonWs, Bool.or_eq_false_iff, decide_eq_false_iff_not]
    omega
  have hcn : 45 ≤ c.toNat ∧ c.toNat ≤ 57 := by rcases h with h | h <;> omega
  have h1 : ¬ c = quoteC := charNe_of_toNat
    (by have h0 : quoteC.toNat = 34 := by decide
        omega)
  have h2 : ¬ c = '[' := charNe_of_toNat
    (by have h0 : ('[' : Char).toNat = 91 := by decide
        omega)
  have h3 : ¬ c = lbraceC := charNe_of_toNat
    (by have h0 : lbraceC.toNat = 123 := by decide
        omega)
  have h4 : ¬ c = 'n' := charNe_of_toNat
    (by have h0 : ('n' : Char).toNat = 110 := by decide
        omega)
  have h5 : ¬ c = 't' := charNe_of_toNat
    (by have h0 : ('t' : Char).toNat = 116 := by decide
        omega)
  have h6 : ¬ c = 'f' := charNe_of_toNat
    (by have h0 : ('f' : Char).toNat = 102 := by decide
        omega)
  have hcond : c.toNat = 45 ∨ isDigitC c = true := by
    rcases h with h | h
    · exact Or.inl h
    · refine Or.inr ?_
      simp only [isDigitC, Bool.and_eq_true, decide_eq_true_eq]
      omega
  simp only [parseValue]
  rw [skipWs_cons_not _ hws]
  simp only []
  rw [if_neg h1, if_neg h2, if_neg h3, if_neg h4, if_neg h5, if_neg h6, if_pos hcond]

/-- Parsing inverts serialization: `parseValue` recovers any JSON value
from its `stringifyF` output (with sufficient fuels), leaving a
delimiter-headed remainder untouched. -/
theorem parse_stringify :
    ∀ (N : Nat) (v : Json), jsize v ≤ N →
    ∀ (sf pf : Nat) (rest : List Char), jsize v ≤ sf → (stringifyF sf v).length < pf →
    headOk rest → parseValue pf (stringifyF sf v ++ rest) = some (v, rest) := by
  intro N
  induction N using Nat.strong_induction_on with
  | _ N ih =>
    intro v hN sf pf rest hsf hpf hrest
    have hsf1 : 1 ≤ sf := le_trans (jsize_pos v) hsf
    cases sf with
    | zero => omega
    | succ f =>
      have hlen1 : 1 ≤ (stringifyF (f + 1) v).length := by
        cases h : stringifyF (f + 1) v with
        | nil => exact absurd h (stringify_ne_nil v (f + 1) (by omega))
        | cons a b => simp
      cases pf with
      | zero => omega
      | succ q =>
        cases v with
        | null => simp +decide [stringifyF, parseValue, skipWs]
        | bool b =>
          cases b <;> simp +decide [stringifyF, parseValue, skipWs]
        | num n =>
          have hhead : ∃ c t, intChars n = c :: t ∧
              (c.toNat = 45 ∨ (48 ≤ c.toNat ∧ c.toNat ≤ 57)) := by
            by_cases hn : n < 0
            · refine ⟨'-', natChars n.natAbs, by simp [intChars, if_pos hn], Or.inl (by decide)⟩
            · cases hc : natChars n.toNat with
              | nil => exact absurd hc (natChars_ne_nil _)
              | cons d ds =>
                have hdig := natChars_digits n.toNat d (by rw [hc]; simp)
                simp only [isDigitC, Bool.and_eq_true, decide_eq_true_eq] at hdig
                exact ⟨d, ds, by simp [intChars, if_neg hn, hc], Or.inr hdig⟩
          obtain ⟨c, t, hct, hc⟩ := hhead
          have hstr : stringifyF (f + 1) (Json.num n) = intChars n := rfl
          rw [hstr, hct, List.cons_append, parseValue_dispatch_num q c (t ++ rest) hc,
            ← List.cons_append, ← hct]
          exact parseNum_intChars n rest hrest
        | str s =>
          have hstr : stringifyF (f + 1) (Json.str s)
              = quoteC :: escapeChars s.data ++ [quoteC] := rfl
          rw [hstr]
          simp only [List.cons_append, List.append_assoc, List.singleton_append, List.nil_append]
          simp +decide [parseValue, skipWs, parseStringBody_escape_self, stringMk_data,
            -List.length_append, -List.length_cons]
        | arr xs =>
          cases xs with
          | nil => simp +decide [stringifyF, sepList, parseValue, skipWs]
          | cons x xs =>
            have hstr : stringifyF (f + 1) (Json.arr (x :: xs))
                = '[' :: sepList ((x :: xs).map (stringifyF f)) ++ [']'] := rfl
            have hjx : jsize x ≤ f := by
              have := @jsizeList_mem x (x :: xs) (by simp)
              simp only [jsize] at hsf
              omega
            have hf1 : 1 ≤ f := le_trans (jsize_pos x) hjx
            obtain ⟨c0, t0, hc0, hg0⟩ := stringify_head x f (by omega)
            have hS : ∃ S0, sepList ((x :: xs).map (stringifyF f)) = c0 :: S0 := by
              cases xs with
              | nil => exact ⟨t0, by simp [sepList, hc0]⟩
              | cons y t =>
                refine ⟨t0 ++ ',' :: sepList ((y :: t).map (stringifyF f)), ?_⟩
                simp [sepList, hc0]
            obtain ⟨S0, hS0⟩ := hS
            have hmemlen : ∀ z ∈ x :: xs, (stringifyF f z).length
                < (stringifyF (f + 1) (Json.arr (x :: xs))).length := by
              intro z hz
              have := sepList_mem_len (l := stringifyF f z)
                (L := (x :: xs).map (stringifyF f)) (List.mem_map_of_mem _ hz)
              rw [hstr]
              simp only [List.length_append, List.length_cons, List.length_nil]
              omega
            have hjz : ∀ z ∈ x :: xs, jsize z ≤ f := by
              intro z hz
              have := @jsizeList_mem z (x :: xs) hz
              simp only [jsize] at hsf
              omega
            have hcount : (x :: xs).length ≤ q := by
              have hc := sepList_count_len (L := (x :: xs).map (stringifyF f))
                (by
                  intro l hl
                  obtain ⟨z, hz, hzl⟩ := List.mem_map.mp hl
                  rw [← hzl]
                  exact stringify_ne_nil z f (by omega))
              rw [hstr] at hpf
              simp only [List.length_append, List.length_cons, List.length_map,
                List.length_nil] at hpf hc ⊢
              omega
            have hpv : ∀ z ∈ x :: xs, ∀ r, headOk r →
                parseValue q (stringifyF f z ++ r) = some (z, r) := by
              intro z hz r hr
              have hlt : jsize z < N := by
                have := @jsizeList_mem z (x :: xs) hz
                simp only [jsize] at hN
                have := jsize_pos z
                omega
              refine ih (jsize z) hlt z le_rfl f q r (hjz z hz) ?_ hr
              have := hmemlen z hz
              omega
            have helems := parseElemsAux_inv (parseValue q) (stringifyF f)
              (x :: xs) q rest (by simp) hcount hpv hrest
            rw [hstr]
            simp only [List.cons_append, List.append_assoc, List.singleton_append, List.nil_append]
            simp only [parseValue]
            rw [skipWs_cons_not _ (by decide)]
            simp only []
            rw [if_neg (by decide : ¬ ('[' : Char) = quoteC), if_pos trivial]
            rw [hS0, List.cons_append,
              skipWs_cons_not _ hg0.1]
            simp only []
            rw [if_neg (charNe_of_toNat
              (by have h93 : (']' : Char).toNat = 93 := by decide
                  have hne := hg0.2.1
                  omega))]
            rw [show c0 :: (S0 ++ (']' :: rest)) = (c0 :: S0) ++ (']' :: rest) from rfl,
              ← hS0, helems]
            rfl
        | obj fs =>
          cases fs with
          | nil => simp +decide [stringifyF, sepList, parseValue, skipWs]
          | cons kv fs =>
            have hstr : stringifyF (f + 1) (Json.obj (kv :: fs))
                = lbraceC :: sepList ((kv :: fs).map (fun kv =>
                    (quoteC :: escapeChars kv.1.data ++ [quoteC])
                      ++ ':' :: stringifyF f kv.2)) ++ [rbraceC] := rfl
            have hjx : jsize kv.2 ≤ f := by
              have := @jsizeFields_mem kv (kv :: fs) (by simp)
              simp only [jsize] at hsf
              omega
            have hmemlen : ∀ z ∈ kv :: fs, (stringifyF f z.2).length
                < (stringifyF (f + 1) (Json.obj (kv :: fs))).length := by
              intro z hz
              have hm := sepList_mem_len
                (l := (quoteC :: escapeChars z.1.data ++ [quoteC]) ++ ':' :: stringifyF f z.2)
                (L := (kv :: fs).map (fun kv =>
                  (quoteC :: escapeChars kv.1.data ++ [quoteC]) ++ ':' :: stringifyF f kv.2))
                (List.mem_map_of_mem _ hz)
              rw [hstr]
              simp only [List.length_append, List.length_cons, List.length_nil] at hm ⊢
              omega
            have hjz : ∀ z ∈ kv :: fs, jsize z.2 ≤ f := by
              intro z hz
              have := @jsizeFields_mem z (kv :: fs) hz
              simp only [jsize] at hsf
              omega
            have hcount : (kv :: fs).length ≤ q := by
              have hc := sepList_count_len (L := (kv :: fs).map (fun kv =>
                  (quoteC :: escapeChars kv.1.data ++ [quoteC]) ++ ':' :: stringifyF f kv.2))
                (by
                  intro l hl
                  obtain ⟨z, hz, hzl⟩ := List.mem_map.mp hl
                  rw [← hzl]
                  simp)
              rw [hstr] at hpf
              simp only [List.length_append, List.length_cons, List.length_map,
                List.length_nil] at hpf hc ⊢
              omega
            have hpv : ∀ z ∈ kv :: fs, ∀ r, headOk r →
                parseValue q (stringifyF f z.2 ++ r) = some (z.2, r) := by
              intro z hz r hr
              have hlt : jsize z.2 < N := by
                have := @jsizeFields_mem z (kv :: fs) hz
                simp only [jsize] at hN
                have := jsize_pos z.2
                omega
              refine ih (jsize z.2) hlt z.2 le_rfl f q r (hjz z hz) ?_ hr
              have := hmemlen z hz
              omega
            have hfields := parseFieldsAux_inv (parseValue q) (stringifyF f)
              (kv :: fs) q rest (by simp) hcount hpv hrest
            rw [hstr]
            simp only [List.cons_append, List.append_assoc, List.singleton_append, List.nil_append]
            simp only [parseValue]
            rw [skipWs_cons_not _ (by decide)]
            simp only []
            rw [if_neg (by decide : ¬ lbraceC = quoteC),
              if_neg (by decide : ¬ lbraceC = '['), if_pos trivial]
            cases fs with
            | nil =>
              simp only [List.map_cons, List.map_nil, sepList, List.cons_append,
                List.append_assoc, List.singleton_append]
              rw [skipWs_cons_not _ (by decide)]
              simp only []
              rw [if_neg (by decide : ¬ quoteC = rbraceC)]
              have := hfields
              simp only [List.map_cons, List.map_nil, sepList, List.cons_append,
                List.append_assoc, List.singleton_append, List.nil_append] at this
              rw [this]
              rfl
            | cons kv2 fs2 =>
              simp only [List.map_cons, sepList, List.cons_append,
                List.append_assoc, List.singleton_append]
              rw [skipWs_cons_not _ (by decide)]
              simp only []
              rw [if_neg (by decide : ¬ quoteC = rbraceC)]
              have := hfields
              simp only [List.map_cons, sepList, List.cons_append,
                List.append_assoc, List.singleton_append, List.nil_append] at this
              rw [this]
              rfl

/-- `JSON.parse` inverts `JSON.stringify` on every JSON value. -/
theorem jsonParse_jsonStringify (v : Json) : jsonParse (jsonStringify v) = some v := by
  have h := parse_stringify (jsize v) v le_rfl (jsize v)
    ((stringifyF (jsize v) v).length + 1) [] le_rfl (by omega) trivial
  rw [List.append_nil] at h
  simp only [jsonParse, jsonStringify]
  rw [h]
  simp [skipWs]

/-! ### Store lemmas -/

/-- Removing a key makes it unreadable. -/
theorem getItem_removeItem_self : ∀ (s : Store) (k : String), getItem (removeItem s k) k = none := by
  intro s k
  induction s with
  | nil => rfl
  | cons kv t ih =>
    by_cases h : kv.1 = k
    · simpa [removeItem, h] using ih
    · simp [removeItem, h, getItem, ih]

/-- Removing one key leaves the others readable. -/
theorem getItem_removeItem_other : ∀ (s : Store) (k k' : String), k' ≠ k →
    getItem (removeItem s k) k' = getItem s k' := by
  intro s k k' hne
  induction s with
  | nil => rfl
  | cons kv t ih =>
    by_cases h : kv.1 = k
    · have h2 : ¬ kv.1 = k' := by rw [h]; exact fun he => hne he.symm
      simp [removeItem, h, getItem, h2, ih]
      rw [if_neg (fun he => hne he.symm)]
    · by_cases h2 : kv.1 = k'
      · subst h2
        simp only [removeItem, if_neg h]
        simp [getItem]
      · simp [removeItem, h, getItem, h2, ih]

/-- Reading the key just written. -/
theorem getItem_setItem_self (s : Store) (k v : String) :
    getItem (setItem s k v) k = some v := by
  simp [setItem, getItem]

/-- Writing one key leaves the others unchanged. -/
theorem getItem_setItem_other (s : Store) (k v k' : String) (h : k' ≠ k) :
    getItem (setItem s k v) k' = getItem s k' := by
  have h2 : ¬ k = k' := fun he => h he.symm
  simp only [setItem, getItem, if_neg h2]
  exact getItem_removeItem_other s k k' h

/-- `multiRemove` removes exactly the listed keys. -/
theorem getItem_multiRemove : ∀ (s : Store) (ks : List String) (k : String),
    getItem (multiRemove s ks) k = if k ∈ ks then none else getItem s k := by
  intro s ks k
  induction s with
  | nil => simp [multiRemove, getItem]
  | cons kv t ih =>
    by_cases hm : kv.1 ∈ ks
    · by_cases hk : kv.1 = k
      · have hkm : k ∈ ks := hk ▸ hm
        simp [multiRemove, hm, ih, hkm]
      · simp [multiRemove, hm, ih, getItem, hk]
    · by_cases hk : kv.1 = k
      · subst hk
        simp [multiRemove, hm, getItem]
      · simp [multiRemove, hm, getItem, hk, ih]

/-- A readable key is among `getAllKeys`. -/
theorem mem_getAllKeys_of_getItem : ∀ (s : Store) (k v : String),
    getItem s k = some v → k ∈ getAllKeys s := by
  intro s k v
  induction s with
  | nil => intro h; simp [getItem] at h
  | cons kv t ih =>
    intro h
    simp only [getItem] at h
    by_cases hk : kv.1 = k
    · simp [getAllKeys, hk.symm]
    · rw [if_neg hk] at h
      simp [getAllKeys] at ih ⊢
      exact Or.inr (ih h)

/-! ### Claim C1 -/

/-- C1: the SessionStore TTL as shipped.  The claim (and the repo's own
CHAT_IMPLEMENTATION.md) state a 24-hour TTL, i.e. `EXPIRES_MS`
= 86400000 ms; the shipped `CONFIG.CHAT_EXPIRY_SECONDS = 1440` makes
`EXPIRES_MS` equal 1440000 ms (24 minutes), contradicting the
documented 24-hour policy. -/
theorem chatExpiry_is_24_minutes :
    EXPIRES_MS = 1440000 ∧ EXPIRES_MS ≠ 24 * 60 * 60 * 1000 := by
  decide

/-! ### Claim C2 -/

/-- Invariant of the progress loop of `sendChatMessageStream`: when
`lastProcessedIndex` equals the accumulated length, the emitted chunks
strictly increase in length starting from the accumulated text, the
invariant is preserved, and the last element of the extended emission
list is the final accumulated text. -/
theorem runProgress_chain :
    ∀ (ts : List String) (s : StreamAcc), s.lastProcessedIndex = s.accumulatedText.length →
    (runProgress s ts).1.lastProcessedIndex = (runProgress s ts).1.accumulatedText.length
    ∧ List.Chain' (fun a b : String => a.length < b.length)
        (s.accumulatedText :: (runProgress s ts).2)
    ∧ (s.accumulatedText :: (runProgress s ts).2).getLast?
        = some (runProgress s ts).1.accumulatedText := by
  intro ts
  induction ts with
  | nil =>
    intro s h
    refine ⟨h, ?_, ?_⟩ <;> simp [runProgress]
  | cons t ts ih =>
    intro s h
    by_cases hlt : s.lastProcessedIndex < t.length
    · have hrec := ih ⟨t, t.length⟩ rfl
      simp only [runProgress, onprogressStep, if_pos hlt, Option.toList, List.cons_append,
        List.nil_append] at hrec ⊢
      refine ⟨hrec.1, ?_, ?_⟩
      · rw [List.chain'_cons]
        exact ⟨by rw [← h]; exact hlt, hrec.2.1⟩
      · rw [List.getLast?_cons_cons]
        exact hrec.2.2
    · have hrec := ih s h
      simp only [runProgress, onprogressStep, if_neg hlt, Option.toList, List.nil_append]
        at hrec ⊢
      exact hrec

/-- C2: over any single run of `sendChatMessageStream`, the sequence of
`onChunk` emissions (progress events followed by the final onload
emission) has strictly increasing accumulated-text lengths: an emission
happens only when the observed response text is longer than the last
processed length, so lengths never decrease and no emission repeats an
unchanged length. -/
theorem sendChatMessageStream_monotone (progressTexts : List String) (finalText : String) :
    List.Chain' (fun a b : String => a.length < b.length)
      (streamEmissions progressTexts finalText) := by
  have h := runProgress_chain progressTexts initStream rfl
  have h21 : List.Chain' (fun a b : String => a.length < b.length)
      (("" : String) :: (runProgress initStream progressTexts).2) := h.2.1
  have h22 : (("" : String) :: (runProgress initStream progressTexts).2).getLast?
      = some (runProgress initStream progressTexts).1.accumulatedText := h.2.2
  have hchain : List.Chain' (fun a b : String => a.length < b.length)
      ((("" : String) :: (runProgress initStream progressTexts).2)
        ++ onloadEmit (runProgress initStream progressTexts).1 finalText) := by
    rw [List.chain'_append]
    refine ⟨h21, ?_, ?_⟩
    · simp only [onloadEmit]
      split <;> simp
    · intro x hx y hy
      rw [h22] at hx
      simp only [Option.mem_def, Option.some.injEq] at hx
      subst hx
      simp only [onloadEmit] at hy
      split at hy
      · simp only [List.head?_cons, Option.mem_def, Option.some.injEq] at hy
        subst hy
        assumption
      · simp at hy
  rw [List.cons_append] at hchain
  have := List.Chain'.tail hchain
  simpa [streamEmissions] using this

/-! ### Claim C8 -/

/-- C8 counterexample: the claim says every streaming request (chat and
elaboration) is bounded by a 30-second timeout; but
`elaborateSelectionStream` never assigns `xhr.timeout` (default `0`, no
timeout) and installs no `ontimeout` handler. -/
theorem selectionStream_no_timeout_cex :
    (selectionStreamXhr "http://127.0.0.1:8080").timeoutMs = 0
    ∧ (selectionStreamXhr "http://127.0.0.1:8080").ontimeoutRejectMsg = none
    ∧ ¬ ((selectionStreamXhr "http://127.0.0.1:8080").timeoutMs = 30000) := by
  refine ⟨rfl, rfl, by decide⟩

/-- C8 amended: only the chat stream request carries the fixed
30-second timeout (`xhr.timeout = 30000`, with an `ontimeout` handler
rejecting with "Request timeout"); the elaboration stream sets no
timeout at all (`0`, the XHR default meaning no timeout) and has no
`ontimeout` handler. -/
theorem streamXhr_timeout_config (apiBaseUrl : String) :
    (chatStreamXhr apiBaseUrl).timeoutMs = 30000
    ∧ (chatStreamXhr apiBaseUrl).ontimeoutRejectMsg = some "Request timeout"
    ∧ (selectionStreamXhr apiBaseUrl).timeoutMs = 0
    ∧ (selectionStreamXhr apiBaseUrl).ontimeoutRejectMsg = none :=
  ⟨rfl, rfl, rfl, rfl⟩

/-! ### Claim C9 -/

/-- Message-record keys are distinct from the session pointer key. -/
theorem keyFor_ne_sessionKey (sessionId : String) : keyFor sessionId ≠ SESSION_KEY := by
  intro h
  have hd := congrArg String.data h
  simp only [keyFor, SESSION_KEY, MSGS_KEY_BASE, MESSAGES_VERSION, String.data_append,
    List.append_assoc] at hd
  have h6 := congrArg (List.take 6) hd
  rw [List.take_append_of_le_length (by decide)] at h6
  exact absurd h6 (by decide)

/-- C9: `startNewConversation` returns the fresh id and persists it
under the session pointer key, superseding any prior pointer; it writes
no other key, so every session's stored turns are unaffected (loadable
exactly as before), and loading under the fresh id (absent from
storage) yields the empty list. -/
theorem startNewConversation_frame (freshId : String) (store : Store) (nowMs : Int) :
    (startNewConversation freshId store).1 = freshId
    ∧ getItem (startNewConversation freshId store).2 SESSION_KEY = some freshId
    ∧ (∀ k, k ≠ SESSION_KEY → getItem (startNewConversation freshId store).2 k = getItem store k)
    ∧ (∀ sessionId, (loadMessages nowMs (startNewConversation freshId store).2 sessionId).1
        = (loadMessages nowMs store sessionId).1)
    ∧ (getItem store (keyFor freshId) = none →
        (loadMessages nowMs (startNewConversation freshId store).2 freshId).1 = []) := by
  refine ⟨rfl, getItem_setItem_self _ _ _, ?_, ?_, ?_⟩
  · intro k hk
    exact getItem_setItem_other _ _ _ _ hk
  · intro sessionId
    have hget : getItem (setItem store SESSION_KEY freshId) (keyFor sessionId)
        = getItem store (keyFor sessionId) :=
      getItem_setItem_other _ _ _ _ (keyFor_ne_sessionKey sessionId)
    show (loadMessages nowMs (setItem store SESSION_KEY freshId) sessionId).1
        = (loadMessages nowMs store sessionId).1
    simp only [loadMessages, hget]
    cases getItem store (keyFor sessionId) with
    | none => rfl
    | some raw =>
      by_cases hraw : raw = ""
      · simp [hraw]
      · simp only [if_neg hraw]
        cases jsonParse raw with
        | none => rfl
        | some parsed =>
          by_cases hv : (jsTruthy parsed && isNumJ (jsGetField parsed "ts")
              && isArrJ (jsGetField parsed "messages")) = true
          · simp only [hv, if_true]
            split <;> rfl
          · simp only [Bool.not_eq_true] at hv
            simp [hv]
  · intro hnone
    have hget : getItem (setItem store SESSION_KEY freshId) (keyFor freshId) = none := by
      rw [getItem_setItem_other _ _ _ _ (keyFor_ne_sessionKey freshId)]
      exact hnone
    show (loadMessages nowMs (setItem store SESSION_KEY freshId) freshId).1 = []
    simp [loadMessages, hget]

/-- C9 witness at a concrete store. -/
theorem startNewConversation_frame_witness :
    getItem (startNewConversation "abc" []).2 SESSION_KEY = some "abc"
    ∧ (loadMessages 0 (startNewConversation "abc" []).2 "abc").1 = [] := by
  have h := startNewConversation_frame "abc" [] 0
  exact ⟨h.2.1, h.2.2.2.2 rfl⟩

/-! ### Claim C10 -/

/-- Serializer output is never the empty string. -/
theorem jsonStringify_ne_empty (v : Json) : jsonStringify v ≠ "" := by
  intro h
  have hd := congrArg String.data h
  simp only [jsonStringify] at hd
  exact stringify_ne_nil v (jsize v) (jsize_pos v) hd

/-- The set-based deduplication produces a duplicate-free list. -/
theorem jsSetDedup_nodup (xs : List String) : (jsSetDedup xs).Nodup := by
  have aux : ∀ (ys : List String) (acc : List String), acc.Nodup →
      (List.foldl (fun acc x => if x ∈ acc then acc else acc ++ [x]) acc ys).Nodup := by
    intro ys
    induction ys with
    | nil => intro acc h; simpa using h
    | cons y t ih =>
      intro acc h
      simp only [List.foldl_cons]
      by_cases hy : y ∈ acc
      · rw [if_pos hy]
        exact ih acc h
      · rw [if_neg hy]
        refine ih (acc ++ [y]) ?_
        simp [List.nodup_append, h, hy]
  exact aux xs [] (by simp)

/-- C10: after a `setProgress`, the stored and subsequently read
`completedLessonIds` list is the set-deduplication of the input, which
never contains the same lesson id twice. -/
theorem setProgress_getProgress_nodup (nowMs : Int) (store : Store) (treeId : String)
    (ids : List String) :
    jsGetField (getProgress (setProgress nowMs store treeId ids) treeId) "completedLessonIds"
      = some (Json.arr ((jsSetDedup ids).map Json.str))
    ∧ ((jsSetDedup ids).map Json.str).Nodup := by
  constructor
  · have hget : getItem (setProgress nowMs store treeId ids) (progressKey treeId)
        = some (jsonStringify (progressJson (jsSetDedup ids) nowMs)) :=
      getItem_setItem_self _ _ _
    have hparse := jsonParse_jsonStringify (progressJson (jsSetDedup ids) nowMs)
    have hne := jsonStringify_ne_empty (progressJson (jsSetDedup ids) nowMs)
    simp only [getProgress, hget, if_neg hne, hparse]
    simp +decide [progressJson, jsGetField, jsTruthy]
  · exact (jsSetDedup_nodup ids).map
      (fun a b h => Json.str.inj h)

/-! ### Claim C7 -/

/-- C7: for a non-empty session id, `saveMessages` overwrites the
stored record with a fresh `ts = now` and the compacted messages; each
compacted message keeps at most `MAX_REFS_PER_MSG` references, and
every kept reference object carries only allow-listed fields. -/
theorem saveMessages_spec (nowMs : Int) (store : Store) (sessionId : String)
    (messages : List Message) (h : sessionId ≠ "") :
    getItem (saveMessages nowMs store sessionId messages) (keyFor sessionId)
      = some (jsonStringify (storedJson nowMs
          (messages.map (fun m => messageToJson (compactMessage m)))))
    ∧ (∀ m ∈ messages, ∀ rs, (compactMessage m).references = some rs →
        rs.length ≤ MAX_REFS_PER_MSG
        ∧ ∀ r ∈ rs, ∀ fields, r = Json.obj fields → ∀ kv ∈ fields, kv.1 ∈ refAllowList) := by
  constructor
  · simp only [saveMessages, if_neg h]
    exact getItem_setItem_self _ _ _
  · intro m _ rs hrs
    simp only [compactMessage] at hrs
    cases hmr : m.references with
    | none => rw [hmr] at hrs; simp at hrs
    | some rs0 =>
      rw [hmr] at hrs
      by_cases he : rs0.isEmpty
      · simp [he] at hrs
      · simp only [Bool.not_eq_true] at he
        simp only [he, Bool.false_eq_true, if_false, Option.some.injEq] at hrs
        subst hrs
        constructor
        · simp only [List.length_map, List.length_take]
          exact le_trans (Nat.min_le_left _ _) le_rfl
        · intro r hr fields hf kv hkv
          obtain ⟨r0, _, hrc⟩ := List.mem_map.mp hr
          rw [← hrc] at hf
          simp only [compactRef, Json.obj.injEq] at hf
          rw [← hf] at hkv
          obtain ⟨fld, hfld, hsome⟩ := List.mem_filterMap.mp hkv
          cases hjf : jsGetField r0 fld with
          | none => rw [hjf] at hsome; simp at hsome
          | some v =>
            rw [hjf] at hsome
            simp only [Option.map_some', Option.some.injEq] at hsome
            rw [← hsome]
            exact hfld

/-- C7 witness at a concrete message with an off-list field. -/
theorem saveMessages_spec_witness :
    getItem (saveMessages 0 [] "s"
        [⟨"bot", "hi", some [Json.obj [("author", Json.str "x"), ("junk", Json.str "y")]]⟩])
      (keyFor "s")
      = some (jsonStringify (storedJson 0
          ([(⟨"bot", "hi", some [Json.obj [("author", Json.str "x"), ("junk", Json.str "y")]]⟩
              : Message)].map (fun m => messageToJson (compactMessage m))))) :=
  (saveMessages_spec 0 [] "s"
    [⟨"bot", "hi", some [Json.obj [("author", Json.str "x"), ("junk", Json.str "y")]]⟩]
    (by decide)).1

/-! ### Claim C6 -/

/-- C6 counterexample: an empty string stored under a session key is
not valid JSON, yet `loadMessages` returns `[]` WITHOUT deleting the
key (the `!raw` falsy guard returns early), so "the offending key no
longer exists afterward" fails as stated. -/
theorem loadMessages_emptyString_cex :
    jsonParse "" = none
    ∧ (loadMessages 0 [(keyFor "s", "")] "s").1 = []
    ∧ getItem (loadMessages 0 [(keyFor "s", "")] "s").2 (keyFor "s") = some "" := by
  refine ⟨rfl, rfl, rfl⟩

/-- C6 amended: for every session whose key holds a NON-empty string
that is either unparsable JSON or parses to a value failing the
`\x7b ts: number, messages: array \x7d` shape check, `loadMessages`
returns the empty list and deletes the offending key (an empty stored
string also returns `[]` but leaves the key in place). -/
theorem loadMessages_selfHeal (nowMs : Int) (store : Store) (sessionId : String) (raw : String)
    (hget : getItem store (keyFor sessionId) = some raw)
    (hne : raw ≠ "")
    (hbad : jsonParse raw = none ∨ ∀ parsed, jsonParse raw = some parsed →
      (jsTruthy parsed && isNumJ (jsGetField parsed "ts")
        && isArrJ (jsGetField parsed "messages")) = false) :
    (loadMessages nowMs store sessionId).1 = []
    ∧ getItem (loadMessages nowMs store sessionId).2 (keyFor sessionId) = none := by
  simp only [loadMessages, hget, if_neg hne]
  cases hp : jsonParse raw with
  | none => exact ⟨rfl, getItem_removeItem_self _ _⟩
  | some parsed =>
    rcases hbad with hb | hb
    · rw [hp] at hb; cases hb
    · have := hb parsed hp
      simp only [this, Bool.false_eq_true, if_false]
      exact ⟨trivial, getItem_removeItem_self _ _⟩

/-- C6 witness: a concrete corrupted record is healed. -/
theorem loadMessages_selfHeal_witness :
    (loadMessages 0 [(keyFor "s", "xx")] "s").1 = []
    ∧ getItem (loadMessages 0 [(keyFor "s", "xx")] "s").2 (keyFor "s") = none :=
  loadMessages_selfHeal 0 [(keyFor "s", "xx")] "s" "xx" rfl (by decide) (Or.inl rfl)

/-! ### Claim C5 -/

/-- The `ts` field of a stored record. -/
theorem storedJson_ts (ts : Int) (msgs : List Json) :
    jsGetField (storedJson ts msgs) "ts" = some (Json.num ts) := by
  simp +decide [storedJson, jsGetField]

/-- The `messages` field of a stored record. -/
theorem storedJson_messages (ts : Int) (msgs : List Json) :
    jsGetField (storedJson ts msgs) "messages" = some (Json.arr msgs) := by
  simp +decide [storedJson, jsGetField]

/-- Message-record keys live in the message namespace. -/
theorem keyFor_startsWith (sessionId : String) :
    strStartsWith (keyFor sessionId) MSGS_KEY_BASE = true := by
  simp only [strStartsWith, keyFor, String.data_append, List.append_assoc]
  rw [ List.isPrefixOf_iff_prefix]
  exact List.prefix_append _ _

/-- C5: TTL boundary behaviour for a well-formed stored record: when
`now - ts > EXPIRES_MS`, `loadMessages` returns `[]` and deletes the
key and `purgeExpiredSessions` deletes the key; when
`now - ts < EXPIRES_MS`, `loadMessages` returns the stored messages
leaving storage untouched, and the purge keeps the record. -/
theorem ttl_boundary (nowMs ts : Int) (store : Store) (sessionId : String) (msgs : List Json)
    (hget : getItem store (keyFor sessionId) = some (jsonStringify (storedJson ts msgs))) :
    (nowMs - ts > EXPIRES_MS →
      (loadMessages nowMs store sessionId).1 = []
      ∧ getItem (loadMessages nowMs store sessionId).2 (keyFor sessionId) = none
      ∧ getItem (purgeExpiredSessions nowMs store) (keyFor sessionId) = none)
    ∧ (nowMs - ts < EXPIRES_MS →
      (loadMessages nowMs store sessionId).1 = msgs
      ∧ (loadMessages nowMs store sessionId).2 = store
      ∧ getItem (purgeExpiredSessions nowMs store) (keyFor sessionId)
          = some (jsonStringify (storedJson ts msgs))) := by
  have hne := jsonStringify_ne_empty (storedJson ts msgs)
  have hparse := jsonParse_jsonStringify (storedJson ts msgs)
  have hts := storedJson_ts ts msgs
  have hmsgs := storedJson_messages ts msgs
  have hvalid : (jsTruthy (storedJson ts msgs)
      && isNumJ (jsGetField (storedJson ts msgs) "ts")
      && isArrJ (jsGetField (storedJson ts msgs) "messages")) = true := by
    rw [hts, hmsgs]
    simp [storedJson, jsTruthy, isNumJ, isArrJ]
  have hnum : jsNumVal (jsGetField (storedJson ts msgs) "ts") = ts := by
    rw [hts]; rfl
  have harr : jsArrVal (jsGetField (storedJson ts msgs) "messages") = msgs := by
    rw [hmsgs]; rfl
  have hdel : ∀ cutoff, purgeShouldDelete cutoff (getItem store (keyFor sessionId))
      = (if ts < cutoff then true else false) := by
    intro cutoff
    rw [hget]
    simp only [purgeShouldDelete, if_neg hne, hparse]
    have hv2 : (jsTruthy (storedJson ts msgs)
        && isNumJ (jsGetField (storedJson ts msgs) "ts")) = true := by
      rw [hts]
      simp [storedJson, jsTruthy, isNumJ]
    rw [hv2]
    simp only [if_true, hnum]
  constructor
  · intro hexp
    have hload : loadMessages nowMs store sessionId
        = ([], removeItem store (keyFor sessionId)) := by
      simp only [loadMessages, hget, if_neg hne, hparse, hvalid, if_true, hnum]
      rw [if_pos hexp]
    refine ⟨by rw [hload], by rw [hload]; exact getItem_removeItem_self _ _, ?_⟩
    · have hmem : keyFor sessionId ∈
          ((getAllKeys store).filter (fun k => strStartsWith k MSGS_KEY_BASE)).filter
            (fun k => purgeShouldDelete (nowMs - EXPIRES_MS) (getItem store k)) := by
        rw [List.mem_filter, List.mem_filter]
        refine ⟨⟨mem_getAllKeys_of_getItem _ _ _ hget, keyFor_startsWith sessionId⟩, ?_⟩
        rw [hdel]
        rw [if_pos (by omega)]
      simp only [purgeExpiredSessions]
      rw [getItem_multiRemove, if_pos hmem]
  · intro hfresh
    have hload : loadMessages nowMs store sessionId = (msgs, store) := by
      simp only [loadMessages, hget, if_neg hne, hparse, hvalid, if_true, hnum, harr]
      rw [if_neg (by omega)]
    refine ⟨by rw [hload], by rw [hload], ?_⟩
    · have hmem : keyFor sessionId ∉
          ((getAllKeys store).filter (fun k => strStartsWith k MSGS_KEY_BASE)).filter
            (fun k => purgeShouldDelete (nowMs - EXPIRES_MS) (getItem store k)) := by
        rw [List.mem_filter]
        intro hcontra
        have := hcontra.2
        rw [hdel, if_neg (by omega)] at this
        cases this
      simp only [purgeExpiredSessions]
      rw [getItem_multiRemove, if_neg hmem, hget]

/-- C5 witness at a concrete record on both sides of the boundary. -/
theorem ttl_boundary_witness :
    getItem (purgeExpiredSessions (EXPIRES_MS + 1)
        [(keyFor "s", jsonStringify (storedJson 0 []))]) (keyFor "s") = none
    ∧ (loadMessages 0 [(keyFor "s", jsonStringify (storedJson 0 []))] "s").1 = [] := by
  constructor
  · exact ((ttl_boundary (EXPIRES_MS + 1) 0
      [(keyFor "s", jsonStringify (storedJson 0 []))] "s" []
      (by simp [getItem])).1 (by decide)).2.2
  · have h := ((ttl_boundary 0 0
      [(keyFor "s", jsonStringify (storedJson 0 []))] "s" []
      (by simp [getItem])).2 (by decide)).1
    simpa using h

/-! ### Claim C4 -/

/-- C4: whenever the separator occurs and the (trimmed) segment after
it is not valid JSON, `parseStreamResponse` does not fail: it returns
the trimmed text before the separator and an empty reference list. -/
theorem parseStreamResponse_malformedTrailer (fullMessage : String) (i : Nat)
    (hidx : findSub fullMessage.data SEPARATOR.data = some i)
    (hbad : jsonParse (jsTrim ⟨fullMessage.data.drop (i + SEPARATOR.data.length)⟩) = none) :
    parseStreamResponse fullMessage = (jsTrim ⟨fullMessage.data.take i⟩, []) := by
  simp only [parseStreamResponse, hidx, hbad]

/-- C4 witness on a concrete malformed trailer. -/
theorem parseStreamResponse_malformedTrailer_witness :
    parseStreamResponse "hi [REFERENCES] not json" = ("hi", []) := by
  have h := parseStreamResponse_malformedTrailer "hi [REFERENCES] not json" 3 rfl rfl
  exact h

/-! ### Claim C3 -/

/-- A pattern longer than the text is never a prefix of it. -/
theorem isPrefixOf_false_of_longer (pat l : List Char) (h : l.length < pat.length) :
    pat.isPrefixOf l = false := by
  by_contra hc
  simp only [Bool.not_eq_false] at hc
  rw [ List.isPrefixOf_iff_prefix] at hc
  exact absurd hc.length_le (by omega)

/-- Strings shorter than the marker cannot contain it. -/
theorem noMarker_of_short (s : String) (h : s.data.length < SEPARATOR.data.length) :
    noMarker s := by
  intro p
  refine isPrefixOf_false_of_longer _ _ ?_
  have := List.length_drop p s.data
  omega

/-- The separator has no nontrivial border: no proper nonempty suffix
of it is also a prefix of it, so an occurrence cannot straddle the
boundary between preceding text and an appended separator. -/
theorem separator_borderFree :
    ∀ s, s < 12 → 1 ≤ s →
      List.drop s SEPARATOR.data ≠ List.take (12 - s) SEPARATOR.data := by
  decide

/-- If a text does not contain the separator, then searching the text
followed by the separator (and anything after it) finds the separator
exactly at the text's length. -/
theorem findSub_append :
    ∀ (main tail : List Char), (∀ p, SEPARATOR.data.isPrefixOf (main.drop p) = false) →
    findSub (main ++ SEPARATOR.data ++ tail) SEPARATOR.data = some main.length := by
  intro main
  induction main with
  | nil =>
    intro tail _
    have hpre : SEPARATOR.data.isPrefixOf (SEPARATOR.data ++ tail) = true := by
      rw [ List.isPrefixOf_iff_prefix]
      exact List.prefix_append _ _
    have hunfold : findSub (SEPARATOR.data ++ tail) SEPARATOR.data
        = if SEPARATOR.data.isPrefixOf (SEPARATOR.data ++ tail) = true then some 0
          else (findSub ("REFERENCES]".data ++ tail) SEPARATOR.data).map (fun i => i + 1) :=
      rfl
    simp only [List.nil_append, List.length_nil]
    rw [hunfold, if_pos hpre]
  | cons c m ih =>
    intro tail hnm
    have hlen : SEPARATOR.data.length = 12 := by decide
    have hnotpre : SEPARATOR.data.isPrefixOf ((c :: m) ++ SEPARATOR.data ++ tail) = false := by
      by_contra hcb
      simp only [Bool.not_eq_false] at hcb
      rw [ List.isPrefixOf_iff_prefix] at hcb
      have hc : SEPARATOR.data <+: (c :: m) ++ (SEPARATOR.data ++ tail) := by
        simpa [List.append_assoc] using hcb
      have h1 : SEPARATOR.data = ((c :: m) ++ (SEPARATOR.data ++ tail)).take 12 := by
        have h0 := List.prefix_iff_eq_take.mp hc
        rw [hlen] at h0
        exact h0
      by_cases hcase : 12 ≤ (c :: m).length
      · have heq : SEPARATOR.data = (c :: m).take 12 := by
          conv_lhs => rw [h1]
          rw [List.take_append_of_le_length hcase]
        have hfalse : SEPARATOR.data.isPrefixOf (c :: m) = false := by
          have := hnm 0
          simpa using this
        have htrue : ((c :: m).take 12).isPrefixOf (c :: m) = true := by
          rw [ List.isPrefixOf_iff_prefix]
          exact List.take_prefix _ _
        rw [heq, htrue] at hfalse
        exact absurd hfalse (by decide)
      · push_neg at hcase
        have hs1 : 1 ≤ (c :: m).length := by simp
        have heq : SEPARATOR.data = (c :: m) ++ SEPARATOR.data.take (12 - (c :: m).length) := by
          conv_lhs => rw [h1]
          rw [List.take_append_eq_append_take,
            List.take_of_length_le (by omega),
            List.take_append_of_le_length (by rw [hlen]; omega)]
        have hdrop : SEPARATOR.data.drop (c :: m).length
            = SEPARATOR.data.take (12 - (c :: m).length) := by
          conv_lhs => rw [heq]
          rw [List.drop_left]
        exact absurd hdrop (separator_borderFree (c :: m).length hcase hs1)
    have hnm' : ∀ p, SEPARATOR.data.isPrefixOf (m.drop p) = false := by
      intro p
      have := hnm (p + 1)
      simpa using this
    have hrec := ih tail hnm'
    have hunfold : findSub ((c :: m) ++ SEPARATOR.data ++ tail) SEPARATOR.data
        = if SEPARATOR.data.isPrefixOf ((c :: m) ++ SEPARATOR.data ++ tail) = true then some 0
          else (findSub (m ++ SEPARATOR.data ++ tail) SEPARATOR.data).map (fun i => i + 1) :=
      rfl
    rw [hunfold, hnotpre]
    simp only [Bool.false_eq_true, if_false]
    rw [hrec]
    simp

/-- Characters in the printable band used by the serializer are not JS
trim whitespace. -/
theorem isJsTrimWs_false_of_bounds (c : Char) (h1 : 34 ≤ c.toNat) (h2 : c.toNat ≤ 125) :
    isJsTrimWs c = false := by
  simp only [isJsTrimWs, Bool.or_eq_false_iff, Bool.and_eq_false_iff,
    decide_eq_false_iff_not]
  omega

/-- The serializer's first character is in the printable band. -/
theorem stringify_head_bounds (v : Json) (sf : Nat) (h : 0 < sf) :
    ∀ c, (stringifyF sf v).head? = some c → 34 ≤ c.toNat ∧ c.toNat ≤ 123 := by
  cases sf with
  | zero => omega
  | succ f =>
    intro c hc
    cases v with
    | null =>
      rw [show stringifyF (f + 1) Json.null = ['n', 'u', 'l', 'l'] from rfl] at hc
      simp only [List.head?_cons, Option.some.injEq] at hc
      subst hc
      decide
    | bool b =>
      cases b with
      | false =>
        rw [show stringifyF (f + 1) (Json.bool false) = ['f', 'a', 'l', 's', 'e'] from rfl] at hc
        simp only [List.head?_cons, Option.some.injEq] at hc
        subst hc
        decide
      | true =>
        rw [show stringifyF (f + 1) (Json.bool true) = ['t', 'r', 'u', 'e'] from rfl] at hc
        simp only [List.head?_cons, Option.some.injEq] at hc
        subst hc
        decide
    | num n =>
      rw [show stringifyF (f + 1) (Json.num n) = intChars n from rfl] at hc
      by_cases hn : n < 0
      · rw [intChars, if_pos hn] at hc
        simp only [List.head?_cons, Option.some.injEq] at hc
        subst hc
        decide
      · rw [intChars, if_neg hn] at hc
        cases hnn : natChars n.toNat with
        | nil => exact absurd hnn (natChars_ne_nil _)
        | cons d ds =>
          rw [hnn] at hc
          simp only [List.head?_cons, Option.some.injEq] at hc
          subst hc
          have hdg := natChars_digits n.toNat d (by rw [hnn]; exact List.mem_cons_self _ _)
          simp only [isDigitC, Bool.and_eq_true, decide_eq_true_eq] at hdg
          omega
    | str s =>
      rw [show stringifyF (f + 1) (Json.str s)
          = quoteC :: (escapeChars s.data ++ [quoteC]) from rfl] at hc
      simp only [List.head?_cons, Option.some.injEq] at hc
      subst hc
      decide
    | arr xs =>
      rw [show stringifyF (f + 1) (Json.arr xs)
          = '[' :: (sepList (xs.map (stringifyF f)) ++ [']']) from rfl] at hc
      simp only [List.head?_cons, Option.some.injEq] at hc
      subst hc
      decide
    | obj fs =>
      rw [show stringifyF (f + 1) (Json.obj fs)
          = lbraceC :: (sepList (fs.map (fun kv =>
              (quoteC :: escapeChars kv.1.data ++ [quoteC]) ++ ':' :: stringifyF f kv.2))
            ++ [rbraceC]) from rfl] at hc
      simp only [List.head?_cons, Option.some.injEq] at hc
      subst hc
      decide

/-- `natChars` ends with a digit. -/
theorem natChars_concat (n : Nat) :
    ∃ t d, natChars n = t ++ [d] ∧ isDigitC d = true := by
  have hdig : ∀ m, m < 10 → isDigitC (Char.ofNat (48 + m)) = true := by decide
  rw [natChars]
  by_cases h10 : n < 10
  · exact ⟨[], Char.ofNat (48 + n), by simp [natDigitsAux, h10], hdig n h10⟩
  · refine ⟨natDigitsAux n (n / 10), Char.ofNat (48 + n % 10), ?_,
      hdig _ (Nat.mod_lt _ (by omega))⟩
    simp [natDigitsAux, h10]

/-- The serializer's last character is in the printable band. -/
theorem stringify_last_bounds (v : Json) (sf : Nat) (h : 0 < sf) :
    ∀ c, (stringifyF sf v).getLast? = some c → 34 ≤ c.toNat ∧ c.toNat ≤ 125 := by
  cases sf with
  | zero => omega
  | succ f =>
    intro c hc
    cases v with
    | null =>
      rw [show stringifyF (f + 1) Json.null = ['n', 'u', 'l', 'l'] from rfl] at hc
      rw [show (['n', 'u', 'l', 'l'] : List Char).getLast? = some 'l' from rfl] at hc
      simp only [Option.some.injEq] at hc
      subst hc
      decide
    | bool b =>
      cases b with
      | false =>
        rw [show stringifyF (f + 1) (Json.bool false) = ['f', 'a', 'l', 's', 'e'] from rfl] at hc
        rw [show (['f', 'a', 'l', 's', 'e'] : List Char).getLast? = some 'e' from rfl] at hc
        simp only [Option.some.injEq] at hc
        subst hc
        decide
      | true =>
        rw [show stringifyF (f + 1) (Json.bool true) = ['t', 'r', 'u', 'e'] from rfl] at hc
        rw [show (['t', 'r', 'u', 'e'] : List Char).getLast? = some 'e' from rfl] at hc
        simp only [Option.some.injEq] at hc
        subst hc
        decide
    | num n =>
      rw [show stringifyF (f + 1) (Json.num n) = intChars n from rfl] at hc
      by_cases hn : n < 0
      · obtain ⟨t, d, hcat, hd⟩ := natChars_concat n.natAbs
        rw [intChars, if_pos hn, hcat,
          show ('-' :: (t ++ [d])) = ('-' :: t) ++ [d] from rfl,
          List.getLast?_concat] at hc
        simp only [Option.some.injEq] at hc
        subst hc
        simp only [isDigitC, Bool.and_eq_true, decide_eq_true_eq] at hd
        omega
      · obtain ⟨t, d, hcat, hd⟩ := natChars_concat n.toNat
        rw [intChars, if_neg hn, hcat, List.getLast?_concat] at hc
        simp only [Option.some.injEq] at hc
        subst hc
        simp only [isDigitC, Bool.and_eq_true, decide_eq_true_eq] at hd
        omega
    | str s =>
      rw [show stringifyF (f + 1) (Json.str s)
          = (quoteC :: escapeChars s.data) ++ [quoteC] from rfl,
        List.getLast?_concat] at hc
      simp only [Option.some.injEq] at hc
      subst hc
      decide
    | arr xs =>
      rw [show stringifyF (f + 1) (Json.arr xs)
          = ('[' :: sepList (xs.map (stringifyF f))) ++ [']'] from rfl,
        List.getLast?_concat] at hc
      simp only [Option.some.injEq] at hc
      subst hc
      decide
    | obj fs =>
      rw [show stringifyF (f + 1) (Json.obj fs)
          = (lbraceC :: sepList (fs.map (fun kv =>
              (quoteC :: escapeChars kv.1.data ++ [quoteC]) ++ ':' :: stringifyF f kv.2)))
            ++ [rbraceC] from rfl,
        List.getLast?_concat] at hc
      simp only [Option.some.injEq] at hc
      subst hc
      decide

/-- Trimming is the identity on lists whose first and last characters
are not trim whitespace. -/
theorem trimChars_eq_self (cs : List Char)
    (hhead : ∀ c, cs.head? = some c → isJsTrimWs c = false)
    (hlast : ∀ c, cs.getLast? = some c → isJsTrimWs c = false) :
    trimChars cs = cs := by
  unfold trimChars
  have h1 : cs.dropWhile isJsTrimWs = cs := by
    cases cs with
    | nil => rfl
    | cons c t => simp [List.dropWhile_cons, hhead c rfl]
  rw [h1]
  have h2 : cs.reverse.dropWhile isJsTrimWs = cs.reverse := by
    cases hr : cs.reverse with
    | nil => rfl
    | cons c t =>
      have hlast' : cs.getLast? = some c := by
        rw [List.getLast?_eq_head?_reverse, hr]
        rfl
      simp [List.dropWhile_cons, hlast c hlast']
  rw [h2, List.reverse_reverse]

/-- Trimming is the identity on serializer output. -/
theorem jsTrim_jsonStringify (v : Json) : jsTrim (jsonStringify v) = jsonStringify v := by
  show (⟨trimChars (stringifyF (jsize v) v)⟩ : String) = ⟨stringifyF (jsize v) v⟩
  have := trimChars_eq_self (stringifyF (jsize v) v)
    (fun c hc => by
      have := stringify_head_bounds v (jsize v) (jsize_pos v) c hc
      exact isJsTrimWs_false_of_bounds c this.1 (by omega))
    (fun c hc => by
      have := stringify_last_bounds v (jsize v) (jsize_pos v) c hc
      exact isJsTrimWs_false_of_bounds c this.1 this.2)
  rw [this]

/-- C3 counterexample: the round-trip claim fails as stated.  First,
for a `mainText` that itself contains the separator, the split happens
at the first occurrence, so the recovered text is not the trimmed
`mainText`.  Second, for an object wrapping an array under a name
other than `references`, the recovered list is empty rather than the
wrapped list. -/
theorem parseStreamResponse_roundtrip_cex :
    ((parseStreamResponse ("A[REFERENCES]B" ++ SEPARATOR ++ jsonStringify (Json.arr []))).1
        = "A"
      ∧ jsTrim "A[REFERENCES]B" = "A[REFERENCES]B"
      ∧ ("A" : String) ≠ "A[REFERENCES]B")
    ∧ ((parseStreamResponse ("x" ++ SEPARATOR
          ++ jsonStringify (Json.obj [("items", Json.arr [Json.num 1])]))).2 = []
      ∧ ([] : List Json) ≠ [Json.num 1]) := by
  refine ⟨⟨rfl, rfl, by decide⟩, rfl, by simp⟩

/-- C3 amended: the trailer round-trip holds for every `mainText` that
does not itself contain the separator and every items value that is an
array or an object wrapping the array under the `references` field:
`parseStreamResponse` recovers the trimmed `mainText` and exactly the
wrapped item list. -/
theorem parseStreamResponse_roundtrip (mainText : String) (items : Json)
    (hm : noMarker mainText)
    (hi : (∃ xs, items = Json.arr xs)
      ∨ (∃ xs, items = Json.obj [("references", Json.arr xs)])) :
    parseStreamResponse (mainText ++ SEPARATOR ++ jsonStringify items)
      = (jsTrim mainText, itemsOf items) := by
  have hdata : (mainText ++ SEPARATOR ++ jsonStringify items).data
      = mainText.data ++ SEPARATOR.data ++ (jsonStringify items).data := by
    simp only [String.data_append]
  have hidx := findSub_append mainText.data (jsonStringify items).data hm
  simp only [parseStreamResponse, hdata, hidx]
  have htake : (mainText.data ++ SEPARATOR.data ++ (jsonStringify items).data).take
      mainText.data.length = mainText.data := by
    rw [List.append_assoc, List.take_left]
  have hdrop : (mainText.data ++ SEPARATOR.data ++ (jsonStringify items).data).drop
      (mainText.data.length + SEPARATOR.data.length) = (jsonStringify items).data := by
    rw [show mainText.data.length + SEPARATOR.data.length
        = (mainText.data ++ SEPARATOR.data).length from by simp]
    rw [List.drop_left]
  rw [htake, hdrop, stringMk_data, stringMk_data, jsTrim_jsonStringify,
    jsonParse_jsonStringify]
  rcases hi with ⟨xs, hxs⟩ | ⟨xs, hxs⟩ <;> subst hxs
  · rfl
  · simp +decide [jsGetField, itemsOf]

/-- C3 witness on a concrete array trailer. -/
theorem parseStreamResponse_roundtrip_witness :
    parseStreamResponse ("hello" ++ SEPARATOR ++ jsonStringify (Json.arr [Json.str "a"]))
      = (jsTrim "hello", itemsOf (Json.arr [Json.str "a"])) :=
  parseStreamResponse_roundtrip "hello" (Json.arr [Json.str "a"])
    (noMarker_of_short "hello" (by decide)) (Or.inl ⟨_, rfl⟩)
